import Mathlib

/-!
Verification development for the tree-estimation core of `treecall`
(`bin/tree_est.py`).  Pure numeric routines are embedded over `ℝ`
(Phred/probability conversions use `Real.rpow` and `Real.logb`); the
neighbor-joining engine, which only uses field arithmetic and comparisons,
is embedded over `ℚ` so that concrete runs evaluate inside the kernel.
Trees are mutual inductives (tree/forest) so that all recursions are
structural and reduce definitionally.
-/

namespace TreeEst

/-! ## Phred/probability utilities (`phred2p`, `p2phred`, `normalize_PL`,
`normalize2d_PL` from `tree_est.py`). -/

/-- `phred2p(x) = 10.0**(-x/10.0)`. -/
noncomputable def phred2p (x : ℝ) : ℝ := (10 : ℝ) ^ (-x / 10)

/-- `p2phred(x) = -10.0*np.log10(x)`. -/
noncomputable def p2phred (x : ℝ) : ℝ := -10 * Real.logb 10 x

theorem phred2p_pos (x : ℝ) : 0 < phred2p x :=
  Real.rpow_pos_of_pos (by norm_num) _

theorem phred2p_ne_zero (x : ℝ) : phred2p x ≠ 0 := (phred2p_pos x).ne'

theorem phred2p_add (a b : ℝ) : phred2p (a + b) = phred2p a * phred2p b := by
  unfold phred2p
  rw [← Real.rpow_add (by norm_num : (0:ℝ) < 10)]
  ring_nf

theorem phred2p_zero : phred2p 0 = 1 := by
  unfold phred2p
  norm_num

theorem phred2p_p2phred {y : ℝ} (hy : 0 < y) : phred2p (p2phred y) = y := by
  unfold phred2p p2phred
  have : -(-10 * Real.logb 10 y) / 10 = Real.logb 10 y := by ring
  rw [this]
  exact Real.rpow_logb (by norm_num) (by norm_num) hy

/-! ## Levenshtein distance and the mutation-model builder
(`gtype_distance`, `make_mut_matrix`).  The Python code uses the external
`editdistance` package; `levFuel` is a fuel-indexed (hence structurally
recursive and kernel-evaluable) Levenshtein distance.  Each recursive call
strictly decreases the total length, and the fuel starts at the total
length, so the fallback branch is never reached for the inputs used. -/

def levFuel : ℕ → List Char → List Char → ℕ
  | 0, xs, ys => xs.length + ys.length
  | _ + 1, [], ys => ys.length
  | _ + 1, x :: xs, [] => (x :: xs).length
  | f + 1, x :: xs, y :: ys =>
      if x = y then levFuel f xs ys
      else 1 + min (levFuel f xs (y :: ys)) (min (levFuel f (x :: xs) ys) (levFuel f xs ys))

/-- `strdist` : Levenshtein distance between two genotype strings. -/
def strdist (a b : List Char) : ℕ := levFuel (a.length + b.length) a b

/-- `GTYPE3 = np.array(('RR','RA','AA'))`. -/
def GTYPE3 : Fin 3 → List Char := ![['R','R'], ['R','A'], ['A','A']]

/-- `gtype_distance(gt)`: `min(strdist(gi,gj), strdist(gi,gj[::-1]))`. -/
def gtype_distance (gt : Fin 3 → List Char) (i j : Fin 3) : ℕ :=
  min (strdist (gt i) (gt j)) (strdist (gt i) (gt j).reverse)

/-- `make_mut_matrix(mu, gtypes)` for the 3-genotype alphabet: returns
`(mm, mm0, mm1)`.  `mm = pmu**gt_dist` with the diagonal overwritten by
`2.0 - mm.sum(axis=0)` (the column sums being taken before the overwrite,
as `np.fill_diagonal` evaluates its value argument first); `mm0` is the
diagonal part (`np.diagflat(mm.diagonal())`), `mm1 = mm - mm0`. -/
noncomputable def make_mut_matrix (mu : ℝ) :
    (Fin 3 → Fin 3 → ℝ) × (Fin 3 → Fin 3 → ℝ) × (Fin 3 → Fin 3 → ℝ) :=
  let pmu := phred2p mu
  let mmraw : Fin 3 → Fin 3 → ℝ := fun i j => pmu ^ gtype_distance GTYPE3 i j
  let mm : Fin 3 → Fin 3 → ℝ := fun i j =>
    if i = j then 2 - ∑ k, mmraw k j else mmraw i j
  let mm0 : Fin 3 → Fin 3 → ℝ := fun i j => if i = j then mm i j else 0
  let mm1 : Fin 3 → Fin 3 → ℝ := fun i j => mm i j - mm0 i j
  (mm, mm0, mm1)

theorem gtype_distance_diag (j : Fin 3) : gtype_distance GTYPE3 j j = 0 := by
  fin_cases j <;> decide

theorem gtype_distance_symm (i j : Fin 3) :
    gtype_distance GTYPE3 i j = gtype_distance GTYPE3 j i := by
  fin_cases i <;> fin_cases j <;> decide

/-- Every column of `mm` sums to `1` (not `2`): the overwrite sets the
diagonal to `2 - colsum`, but `colsum` already contains the raw diagonal
entry `pmu^0 = 1`. -/
theorem make_mut_matrix_colsum (mu : ℝ) (j : Fin 3) :
    (∑ i, (make_mut_matrix mu).1 i j) = 1 := by
  have h0 : gtype_distance GTYPE3 (0 : Fin 3) 0 = 0 := by decide
  have h1 : gtype_distance GTYPE3 (1 : Fin 3) 1 = 0 := by decide
  have h2 : gtype_distance GTYPE3 (2 : Fin 3) 2 = 0 := by decide
  fin_cases j <;>
    simp [make_mut_matrix, Fin.sum_univ_three, h0, h1, h2, pow_zero] <;> ring

theorem make_mut_matrix_rowsum (mu : ℝ) (i : Fin 3) :
    (∑ j, (make_mut_matrix mu).1 i j) = 1 := by
  have h01 : gtype_distance GTYPE3 (0 : Fin 3) 1 = gtype_distance GTYPE3 (1 : Fin 3) 0 := by decide
  have h02 : gtype_distance GTYPE3 (0 : Fin 3) 2 = gtype_distance GTYPE3 (2 : Fin 3) 0 := by decide
  have h12 : gtype_distance GTYPE3 (1 : Fin 3) 2 = gtype_distance GTYPE3 (2 : Fin 3) 1 := by decide
  have h0 : gtype_distance GTYPE3 (0 : Fin 3) 0 = 0 := by decide
  have h1 : gtype_distance GTYPE3 (1 : Fin 3) 1 = 0 := by decide
  have h2 : gtype_distance GTYPE3 (2 : Fin 3) 2 = 0 := by decide
  fin_cases i <;>
    simp [make_mut_matrix, Fin.sum_univ_three, h0, h1, h2, h01, h02, h12, pow_zero] <;> ring

/-- Claim C1 (amended): for every mutation rate `mu`, each off-diagonal
entry of `mm` is `phred2p(mu)` raised to the genotype distance, the
diagonal is set so that every column and every row of `mm` totals `1.0`
(not `2.0`), `mm0` is exactly the diagonal part of `mm`, `mm1` exactly the
off-diagonal part, and `mm = mm0 + mm1`. -/
theorem make_mut_matrix_spec (mu : ℝ) :
    (∀ i j : Fin 3, i ≠ j →
        (make_mut_matrix mu).1 i j = phred2p mu ^ gtype_distance GTYPE3 i j) ∧
    (∀ j : Fin 3, (∑ i, (make_mut_matrix mu).1 i j) = 1) ∧
    (∀ i : Fin 3, (∑ j, (make_mut_matrix mu).1 i j) = 1) ∧
    (∀ i j : Fin 3, (make_mut_matrix mu).2.1 i j =
        if i = j then (make_mut_matrix mu).1 i j else 0) ∧
    (∀ i j : Fin 3, (make_mut_matrix mu).2.2 i j =
        if i = j then 0 else (make_mut_matrix mu).1 i j) ∧
    (∀ i j : Fin 3, (make_mut_matrix mu).1 i j =
        (make_mut_matrix mu).2.1 i j + (make_mut_matrix mu).2.2 i j) := by
  refine ⟨?_, make_mut_matrix_colsum mu, make_mut_matrix_rowsum mu, ?_, ?_, ?_⟩
  · intro i j hij
    simp [make_mut_matrix, hij]
  · intro i j
    rfl
  · intro i j
    by_cases h : i = j <;> simp [make_mut_matrix, h]
  · intro i j
    by_cases h : i = j <;> simp [make_mut_matrix, h]

theorem make_mut_matrix_spec_witness :
    ((0 : Fin 3) ≠ (1 : Fin 3)) ∧
      (make_mut_matrix 10).1 0 1 = phred2p 10 ^ gtype_distance GTYPE3 0 1 :=
  ⟨by decide, (make_mut_matrix_spec 10).1 0 1 (by decide)⟩

/-- Claim C1 counterexample: at `mu = 10` the first column of `mm` totals
`1`, not `2.0` as the claim states. -/
theorem make_mut_matrix_totals_counterexample :
    (∑ i, (make_mut_matrix 10).1 i 0) ≠ 2 := by
  rw [make_mut_matrix_colsum]
  norm_num

/-! ## Normalization and the pairwise distance seeding neighbor joining
(`normalize_PL`, `normalize2d_PL`, `pairwise_diff`, `make_D`). -/

/-- `normalize_PL(x)`: `p = 10**(-x/10); return -10*log10(p/p.sum())`. -/
noncomputable def normalize_PL (x : Fin 3 → ℝ) : Fin 3 → ℝ :=
  fun g => -10 * Real.logb 10 (phred2p (x g) / ∑ g', phred2p (x g'))

/-- `normalize2d_PL(x)`: per-site (row-wise) variant of `normalize_PL`. -/
noncomputable def normalize2d_PL {n : ℕ} (x : Fin n → Fin 3 → ℝ) :
    Fin n → Fin 3 → ℝ :=
  fun s g => -10 * Real.logb 10 (phred2p (x s g) / ∑ g', phred2p (x s g'))

/-- `pairwise_diff(PLs, i, j)`: normalize both samples' per-site Phred
rows, add the two Phred-scale matrices, convert back to probability
space (`phred2p(pli+plj)`), and accumulate `1 - p.sum(axis=1)`. -/
noncomputable def pairwise_diff {n m : ℕ} (PLs : Fin n → Fin m → Fin 3 → ℝ)
    (i j : Fin m) : ℝ :=
  let pli := normalize2d_PL (fun s g => PLs s i g)
  let plj := normalize2d_PL (fun s g => PLs s j g)
  ∑ s, (1 - ∑ g, phred2p (pli s g + plj s g))

/-- `make_D(PLs)`: zero matrix of side `2m-2` whose top-left block holds
`pairwise_diff` for every unordered sample pair (mirrored). -/
noncomputable def make_D {n m : ℕ} (PLs : Fin n → Fin m → Fin 3 → ℝ)
    (a b : ℕ) : ℝ :=
  if ha : a < m then
    if hb : b < m then
      if a = b then 0 else pairwise_diff PLs ⟨a, ha⟩ ⟨b, hb⟩
    else 0
  else 0

/-- The per-site probability distribution a sample's Phred row normalizes
to: `phred2p(PL) / Σ_genotype phred2p(PL)`. -/
noncomputable def siteNormProb {n m : ℕ} (PLs : Fin n → Fin m → Fin 3 → ℝ)
    (k : Fin m) (s : Fin n) (g : Fin 3) : ℝ :=
  phred2p (PLs s k g) / ∑ g', phred2p (PLs s k g')

/-- Modelled from the spec: `pairwise_site_distance` as §4.1 words it —
normalize each sample's row to a probability distribution, SUM the two
distributions per site, and accumulate `1 − Σ_genotype(p)`. -/
noncomputable def pairwise_site_distance_spec {n m : ℕ}
    (PLs : Fin n → Fin m → Fin 3 → ℝ) (i j : Fin m) : ℝ :=
  ∑ s, (1 - ∑ g, (siteNormProb PLs i s g + siteNormProb PLs j s g))

theorem sum_phred2p_pos {n : ℕ} (x : Fin n → Fin 3 → ℝ) (s : Fin n) :
    0 < ∑ g', phred2p (x s g') :=
  Finset.sum_pos (fun g _ => phred2p_pos _) ⟨0, Finset.mem_univ _⟩

/-- Converting a normalized row back to probability space recovers the
probability ratio. -/
theorem phred2p_normalize2d {n : ℕ} (x : Fin n → Fin 3 → ℝ) (s : Fin n)
    (g : Fin 3) :
    phred2p (normalize2d_PL x s g) = phred2p (x s g) / ∑ g', phred2p (x s g') := by
  unfold normalize2d_PL
  have hy : 0 < phred2p (x s g) / ∑ g', phred2p (x s g') :=
    div_pos (phred2p_pos _) (sum_phred2p_pos x s)
  exact phred2p_p2phred hy

/-- The code's pairwise distance as a product of the two normalized
distributions: `phred2p(pli+plj) = phred2p(pli)·phred2p(plj)`. -/
theorem pairwise_diff_prod {n m : ℕ} (PLs : Fin n → Fin m → Fin 3 → ℝ)
    (i j : Fin m) :
    pairwise_diff PLs i j =
      ∑ s, (1 - ∑ g, siteNormProb PLs i s g * siteNormProb PLs j s g) := by
  unfold pairwise_diff
  refine Finset.sum_congr rfl (fun s _ => ?_)
  congr 1
  refine Finset.sum_congr rfl (fun g _ => ?_)
  rw [phred2p_add, phred2p_normalize2d, phred2p_normalize2d]
  rfl

/-- Claim C6 (amended): the pairwise distance seeding neighbor joining is
the sum over sites of `1` minus the genotype-sum of the elementwise
PRODUCT of the two normalized per-site distributions (adding the two
Phred-scale rows multiplies the probability distributions), both for
`pairwise_diff` itself and for the `make_D` entries built from it. -/
theorem pairwise_diff_spec {n m : ℕ} (PLs : Fin n → Fin m → Fin 3 → ℝ)
    (i j : Fin m) :
    pairwise_diff PLs i j =
      (∑ s, (1 - ∑ g, siteNormProb PLs i s g * siteNormProb PLs j s g)) ∧
    (∀ a b : ℕ, ∀ ha : a < m, ∀ hb : b < m, a ≠ b →
      make_D PLs a b =
        ∑ s, (1 - ∑ g, siteNormProb PLs ⟨a, ha⟩ s g * siteNormProb PLs ⟨b, hb⟩ s g)) := by
  refine ⟨pairwise_diff_prod PLs i j, fun a b ha hb hab => ?_⟩
  unfold make_D
  rw [dif_pos ha, dif_pos hb, if_neg hab]
  exact pairwise_diff_prod PLs _ _

/-- All-zero one-site Phred input used to separate the code from the
spec's wording. -/
noncomputable def zeroPLs : Fin 1 → Fin 2 → Fin 3 → ℝ := fun _ _ _ => 0

/-- Claim C6 counterexample: on the all-zero one-site input the code's
`pairwise_diff` yields `2/3` (product of the two uniform distributions)
while the spec's "sum the two distributions" formula yields `-1`. -/
theorem pairwise_diff_counterexample :
    pairwise_diff zeroPLs 0 1 = 2 / 3 ∧
    pairwise_site_distance_spec zeroPLs 0 1 = -1 ∧
    pairwise_diff zeroPLs 0 1 ≠ pairwise_site_distance_spec zeroPLs 0 1 := by
  have hnorm : ∀ (k : Fin 2) (s : Fin 1) (g : Fin 3),
      siteNormProb zeroPLs k s g = 1 / 3 := by
    intro k s g
    simp only [siteNormProb, zeroPLs, phred2p_zero, Fin.sum_univ_three]
    norm_num
  have h1 : pairwise_diff zeroPLs 0 1 = 2 / 3 := by
    rw [pairwise_diff_prod zeroPLs 0 1]
    simp only [hnorm, Fin.sum_univ_three, Finset.univ_unique, Finset.sum_singleton]
    norm_num
  have h2 : pairwise_site_distance_spec zeroPLs 0 1 = -1 := by
    unfold pairwise_site_distance_spec
    simp only [hnorm, Fin.sum_univ_three, Finset.univ_unique, Finset.sum_singleton]
    norm_num
  exact ⟨h1, h2, by rw [h1, h2]; norm_num⟩

theorem pairwise_diff_spec_witness :
    make_D zeroPLs 0 1 =
      ∑ s, (1 - ∑ g, siteNormProb zeroPLs ⟨0, by norm_num⟩ s g *
        siteNormProb zeroPLs ⟨1, by norm_num⟩ s g) :=
  (pairwise_diff_spec zeroPLs 0 1).2 0 1 (by norm_num) (by norm_num) (by norm_num)

/-- Row-wise offset invariance of `normalize2d_PL`: adding a per-site
constant to every genotype entry of a row leaves the normalized output
unchanged. -/
theorem normalize2d_PL_offset {n : ℕ} (x : Fin n → Fin 3 → ℝ) (c : Fin n → ℝ) :
    normalize2d_PL (fun s g => x s g + c s) = normalize2d_PL x := by
  funext s g
  unfold normalize2d_PL
  have hfac : ∀ g' : Fin 3, phred2p (x s g' + c s) = phred2p (x s g') * phred2p (c s) :=
    fun g' => phred2p_add _ _
  rw [hfac g]
  have hsum : (∑ g', phred2p (x s g' + c s)) = (∑ g', phred2p (x s g')) * phred2p (c s) := by
    rw [Finset.sum_mul]
    exact Finset.sum_congr rfl (fun g' _ => hfac g')
  rw [hsum, mul_div_mul_right _ _ (phred2p_ne_zero (c s))]

/-- Claim C10: Phred normalization is invariant under a constant offset —
for `normalize_PL`, for single rows of `normalize2d_PL`, and consequently
for the `pairwise_diff` distances fed to neighbor joining when one
sample's Phred rows are offset by per-site constants. -/
theorem normalize_PL_offset_invariant :
    (∀ (x : Fin 3 → ℝ) (c : ℝ), normalize_PL (fun g => x g + c) = normalize_PL x) ∧
    (∀ (n : ℕ) (x : Fin n → Fin 3 → ℝ) (t : Fin n) (c : ℝ),
      normalize2d_PL (fun s g => if s = t then x s g + c else x s g) = normalize2d_PL x) ∧
    (∀ (n m : ℕ) (PLs : Fin n → Fin m → Fin 3 → ℝ) (i j : Fin m) (c : Fin n → ℝ),
      pairwise_diff (fun s k g => if k = i then PLs s k g + c s else PLs s k g) i j =
        pairwise_diff PLs i j) := by
  refine ⟨?_, ?_, ?_⟩
  · intro x c
    funext g
    unfold normalize_PL
    have hfac : ∀ g' : Fin 3, phred2p (x g' + c) = phred2p (x g') * phred2p c :=
      fun g' => phred2p_add _ _
    rw [hfac g]
    have hsum : (∑ g', phred2p (x g' + c)) = (∑ g', phred2p (x g')) * phred2p c := by
      rw [Finset.sum_mul]
      exact Finset.sum_congr rfl (fun g' _ => hfac g')
    rw [hsum, mul_div_mul_right _ _ (phred2p_ne_zero c)]
  · intro n x t c
    have h : (fun s g => if s = t then x s g + c else x s g) =
        (fun s g => x s g + (if s = t then c else 0)) := by
      funext s g
      by_cases hs : s = t <;> simp [hs]
    rw [h]
    exact normalize2d_PL_offset x _
  · intro n m PLs i j c
    have base : ∀ k : Fin m,
        normalize2d_PL (fun s g => if k = i then PLs s k g + c s else PLs s k g) =
          normalize2d_PL (fun s g => PLs s k g) := by
      intro k
      by_cases hk : k = i
      · simp only [hk, if_pos rfl]
        exact normalize2d_PL_offset (fun s g => PLs s i g) c
      · simp only [if_neg hk]
    unfold pairwise_diff
    rw [base i, base j]

/-! ## The neighbor-joining engine (`init_star_tree`, `neighbor_joining`).

`ete2` trees are embedded as a mutual inductive (tree/forest) so every
recursion is structural and kernel-evaluable.  Node names are the `ℕ`
behind the Python `str(i)` names (`str` is injective on them, and names
are globally unique during joining, so removing a root child by name is
the `tree&str(...)`/`detach` pair).  `dist` is `ℚ`: the joining loop only
adds, subtracts, halves and compares, so exact rationals embed the float
arithmetic; `int(vi)` is Python truncation toward zero.  `ete2`'s default
branch length for `add_child` without `dist` is `1.0`.  `D` is a function
`ℕ → ℕ → ℚ` updated pointwise; its row count `len(D)` is carried as the
explicit `lenD` parameter. -/

mutual
inductive ETree : Type where
  | node (name : ℕ) (dist : ℚ) (children : EForest)
inductive EForest : Type where
  | nil : EForest
  | cons : ETree → EForest → EForest
end

def ETree.name : ETree → ℕ
  | .node nm _ _ => nm

def ETree.dist : ETree → ℚ
  | .node _ d _ => d

def ETree.children : ETree → EForest
  | .node _ _ cs => cs

/-- `add_child(c, dist=v)` sets `c.dist = v` before attaching. -/
def ETree.setDist : ETree → ℚ → ETree
  | .node nm _ cs, v => .node nm v cs

def EForest.append : EForest → EForest → EForest
  | .nil, ds => ds
  | .cons c cs, ds => .cons c (cs.append ds)

/-- Top-level names of a forest (the active root children). -/
def namesF : EForest → List ℕ
  | .nil => []
  | .cons c cs => c.name :: namesF cs

def lengthF : EForest → ℕ
  | .nil => 0
  | .cons _ cs => 1 + lengthF cs

mutual
def leafCountT : ETree → ℕ
  | .node _ _ .nil => 1
  | .node _ _ (.cons c cs) => leafCountF (.cons c cs)
def leafCountF : EForest → ℕ
  | .nil => 0
  | .cons c cs => leafCountT c + leafCountF cs
end

mutual
def internalCountT : ETree → ℕ
  | .node _ _ .nil => 0
  | .node _ _ (.cons c cs) => 1 + internalCountF (.cons c cs)
def internalCountF : EForest → ℕ
  | .nil => 0
  | .cons c cs => internalCountT c + internalCountF cs
end

mutual
def binaryT : ETree → Bool
  | .node _ _ .nil => true
  | .node _ _ (.cons c cs) =>
      (lengthF (.cons c cs) == 2) && binaryF (.cons c cs)
def binaryF : EForest → Bool
  | .nil => true
  | .cons c cs => binaryT c && binaryF cs
end

mutual
def distsT : ETree → List ℚ
  | .node _ d cs => d :: distsF cs
def distsF : EForest → List ℚ
  | .nil => []
  | .cons c cs => distsT c ++ distsF cs
end

/-- All branch lengths stored on the tree: the `dist` of every node below
the root (the root's own `dist` is not a branch). -/
def allBranchDists (t : ETree) : List ℚ := distsF t.children

/-- `detach` of the first root child carrying the given name (names are
globally unique during joining, so the global `tree&str(name)` search
finds exactly this child). -/
def removeChild : EForest → ℕ → EForest × Option ETree
  | .nil, _ => (.nil, none)
  | .cons c cs, nm =>
      if c.name = nm then (cs, some c)
      else
        let r := removeChild cs nm
        (.cons c r.1, r.2)

/-- Python `int()`: truncation toward zero. -/
def pyInt (q : ℚ) : ℤ := q.num.tdiv (q.den : ℤ)

/-- Pointwise update of one `D` cell. -/
def upd (D : ℕ → ℕ → ℚ) (a b : ℕ) (v : ℚ) : ℕ → ℕ → ℚ :=
  fun x y => if x = a ∧ y = b then v else D x y

/-- `D[a,b] = D[b,a] = v`. -/
def updSym (D : ℕ → ℕ → ℚ) (a b : ℕ) (v : ℚ) : ℕ → ℕ → ℚ :=
  upd (upd D a b v) b a v

/-- Row-major scan of all off-diagonal index pairs of an `m × m` matrix
(`np.fill_diagonal(Q, np.inf)` makes diagonal entries never minimal). -/
def offDiagPairs (m : ℕ) : List (ℕ × ℕ) :=
  (List.range m).flatMap (fun i => (List.range m).map (fun j => (i, j))) |>.filter
    (fun p => p.1 ≠ p.2)

/-- `np.unravel_index(Q.argmin(), (m,m))`: the row-major-first pair
attaining the minimum of `Q` (strict comparison keeps the earliest). -/
def argminQ (Q : ℕ → ℕ → ℚ) (m : ℕ) : ℕ × ℕ :=
  match offDiagPairs m with
  | [] => (0, 1)
  | p :: ps => ps.foldl (fun b q => if Q q.1 q.2 < Q b.1 b.2 then q else b) p

/-- `np.delete(internals, [i,j])`: remove positions `i` and `j`. -/
def deleteIdx2 (l : List ℕ) (i j : ℕ) : List ℕ :=
  (l.eraseIdx (max i j)).eraseIdx (min i j)

/-- `d = D[internals[:,None],internals]`: the active submatrix (a copy,
so later writes to `D` do not affect it). -/
def njD (D : ℕ → ℕ → ℚ) (ints : List ℕ) (a b : ℕ) : ℚ :=
  D (ints.getD a 0) (ints.getD b 0)

/-- `u = d.sum(axis=1)/(m-2)`. -/
def njU (D : ℕ → ℕ → ℚ) (ints : List ℕ) (a : ℕ) : ℚ :=
  ((List.range ints.length).map (njD D ints a)).sum / ((ints.length : ℚ) - 2)

/-- `Q[i,j] = d[i,j] - u[i] - u[j]`. -/
def njQ (D : ℕ → ℕ → ℚ) (ints : List ℕ) (a b : ℕ) : ℚ :=
  njD D ints a b - njU D ints a - njU D ints b

/-- The fresh internal node name `l = len(D)+2-m`. -/
def njL (lenD : ℕ) (ints : List ℕ) : ℕ := lenD + 2 - ints.length

/-- Branch length `vi = (d[i,j]+u[i]-u[j])/2`. -/
def njVi (D : ℕ → ℕ → ℚ) (ints : List ℕ) (i j : ℕ) : ℚ :=
  (njD D ints i j + njU D ints i - njU D ints j) / 2

/-- Branch length `vj = (d[i,j]+u[j]-u[i])/2`. -/
def njVj (D : ℕ → ℕ → ℚ) (ints : List ℕ) (i j : ℕ) : ℚ :=
  (njD D ints i j + njU D ints j - njU D ints i) / 2

/-- The `for k in xrange(m)` loop storing
`D[l,internals[k]] = D[internals[k],l] = d[i,k]+d[j,k]-d[i,j]`. -/
def njD1 (lenD : ℕ) (D : ℕ → ℕ → ℚ) (ints : List ℕ) (i j : ℕ) : ℕ → ℕ → ℚ :=
  (List.range ints.length).foldl
    (fun Dk k => updSym Dk (njL lenD ints) (ints.getD k 0)
      (njD D ints i k + njD D ints j k - njD D ints i j)) D

/-- `D` after the loop plus the two overwrites
`D[l,internals[i]] = D[internals[i],l] = vi` (and symmetrically `vj`). -/
def njD3 (lenD : ℕ) (D : ℕ → ℕ → ℚ) (ints : List ℕ) (i j : ℕ) : ℕ → ℕ → ℚ :=
  updSym (updSym (njD1 lenD D ints i j) (njL lenD ints) (ints.getD i 0) (njVi D ints i j))
    (njL lenD ints) (ints.getD j 0) (njVj D ints i j)

/-- One iteration of the joining loop after the `(i,j)` pair has been
chosen: update `D`, detach the two active children, attach the new
internal node `l` (children `ci` with `dist=int(vi)`, `cj` with
`dist=int(vj)`, the node itself with the default `dist` 1), and replace
`i,j` by `l` in the active list. -/
def njJoin (lenD : ℕ) (D : ℕ → ℕ → ℚ) (cs : EForest) (ints : List ℕ)
    (i j : ℕ) : (ℕ → ℕ → ℚ) × EForest × List ℕ :=
  let l := njL lenD ints
  let r1 := removeChild cs (ints.getD i 0)
  let r2 := removeChild r1.1 (ints.getD j 0)
  let ints' := deleteIdx2 ints i j ++ [l]
  match r1.2, r2.2 with
  | some ci, some cj =>
      (njD3 lenD D ints i j,
       r2.1.append (.cons (.node l 1
         (.cons (ci.setDist ((pyInt (njVi D ints i j) : ℤ) : ℚ))
           (.cons (cj.setDist ((pyInt (njVj D ints i j) : ℤ) : ℚ)) .nil))) .nil),
       ints')
  | _, _ => (njD3 lenD D ints i j, r2.1, ints')

/-- One iteration of the joining loop, including the `Q`-criterion argmin. -/
def njStep (lenD : ℕ) (D : ℕ → ℕ → ℚ) (cs : EForest) (ints : List ℕ) :
    (ℕ → ℕ → ℚ) × EForest × List ℕ :=
  let ij := argminQ (njQ D ints) ints.length
  njJoin lenD D cs ints ij.1 ij.2

/-- The `while m > 2` loop; each iteration shrinks the active list by one,
so `fuel = |internals|` always suffices. -/
def njLoop (lenD : ℕ) : ℕ → (ℕ → ℕ → ℚ) × EForest × List ℕ →
    (ℕ → ℕ → ℚ) × EForest × List ℕ
  | 0, s => s
  | fuel + 1, s =>
      if 2 < s.2.2.length then njLoop lenD fuel (njStep lenD s.1 s.2.1 s.2.2)
      else s

/-- `neighbor_joining(D, tree, internals)`. -/
def neighbor_joining (lenD : ℕ) (D : ℕ → ℕ → ℚ) (tree : ETree)
    (ints : List ℕ) : ETree :=
  let r := njLoop lenD ints.length (D, tree.children, ints)
  .node tree.name tree.dist r.2.1

def ofListE : List ETree → EForest
  | [] => .nil
  | c :: cs => .cons c (ofListE cs)

/-- `init_star_tree(n)`: a root with children named `0..n-1` (default
`ete2` branch length `1`). -/
def init_star_tree (n : ℕ) : ETree :=
  .node 0 1 (ofListE ((List.range n).map (fun i => .node i 1 .nil)))

/-- Last root child of a forest (the most recently attached node). -/
def lastChildF : EForest → Option ETree
  | .nil => none
  | .cons c .nil => some c
  | .cons _ (.cons c cs) => lastChildF (.cons c cs)

/-- Top-level `dist`s of a node's direct children. -/
def topDistsF : EForest → List ℚ
  | .nil => []
  | .cons c cs => c.dist :: topDistsF cs

/-! ### Forest bookkeeping lemmas -/

theorem namesF_append : ∀ cs ds : EForest,
    namesF (cs.append ds) = namesF cs ++ namesF ds
  | .nil, _ => rfl
  | .cons c cs, ds => by
      simp only [EForest.append, namesF, namesF_append cs ds, List.cons_append]

theorem leafCountF_append : ∀ cs ds : EForest,
    leafCountF (cs.append ds) = leafCountF cs + leafCountF ds
  | .nil, _ => by simp [EForest.append, leafCountF]
  | .cons c cs, ds => by
      simp only [EForest.append, leafCountF, leafCountF_append cs ds]
      ring

theorem internalCountF_append : ∀ cs ds : EForest,
    internalCountF (cs.append ds) = internalCountF cs + internalCountF ds
  | .nil, _ => by simp [EForest.append, internalCountF]
  | .cons c cs, ds => by
      simp only [EForest.append, internalCountF, internalCountF_append cs ds]
      ring

theorem binaryF_append : ∀ cs ds : EForest,
    binaryF (cs.append ds) = (binaryF cs && binaryF ds)
  | .nil, _ => by simp [EForest.append, binaryF]
  | .cons c cs, ds => by
      simp only [EForest.append, binaryF, binaryF_append cs ds, Bool.and_assoc]

theorem lengthF_namesF : ∀ cs : EForest, lengthF cs = (namesF cs).length
  | .nil => rfl
  | .cons c cs => by
      simp only [lengthF, namesF, List.length_cons, lengthF_namesF cs]
      omega

theorem setDist_name (c : ETree) (v : ℚ) : (c.setDist v).name = c.name := by
  cases c; rfl

theorem setDist_binary (c : ETree) (v : ℚ) : binaryT (c.setDist v) = binaryT c := by
  cases c with
  | node nm d cs => cases cs <;> rfl

theorem setDist_leafCount (c : ETree) (v : ℚ) : leafCountT (c.setDist v) = leafCountT c := by
  cases c with
  | node nm d cs => cases cs <;> rfl

theorem setDist_internalCount (c : ETree) (v : ℚ) :
    internalCountT (c.setDist v) = internalCountT c := by
  cases c with
  | node nm d cs => cases cs <;> rfl

theorem setDist_dist (c : ETree) (v : ℚ) : (c.setDist v).dist = v := by
  cases c; rfl

/-- `removeChild` (= `tree&str(nm)` followed by `detach`) of a present
name: the removed child carries that name and the forest loses exactly
that child. -/
theorem removeChild_spec : ∀ (cs : EForest) (nm : ℕ), nm ∈ namesF cs →
    ∃ c cs', removeChild cs nm = (cs', some c) ∧ c.name = nm ∧
      (namesF cs).Perm (nm :: namesF cs') ∧
      leafCountF cs = leafCountT c + leafCountF cs' ∧
      internalCountF cs = internalCountT c + internalCountF cs' ∧
      (binaryF cs = true → binaryT c = true ∧ binaryF cs' = true)
  | .nil, nm, h => absurd h (by simp [namesF])
  | .cons c cs, nm, h => by
      by_cases hc : c.name = nm
      · refine ⟨c, cs, ?_, hc, ?_, ?_, ?_, ?_⟩
        · simp [removeChild, hc]
        · simp [namesF, hc]
        · simp [leafCountF]
        · simp [internalCountF]
        · intro hb
          simp only [binaryF, Bool.and_eq_true] at hb
          exact ⟨hb.1, hb.2⟩
      · have hmem : nm ∈ namesF cs := by
          simp only [namesF, List.mem_cons] at h
          rcases h with h | h
          · exact absurd h.symm hc
          · exact h
        obtain ⟨c', cs', heq, hnm, hperm, hleaf, hint, hbin⟩ :=
          removeChild_spec cs nm hmem
        refine ⟨c', .cons c cs', ?_, hnm, ?_, ?_, ?_, ?_⟩
        · simp [removeChild, hc, heq]
        · show (c.name :: namesF cs).Perm (nm :: c.name :: namesF cs')
          exact (hperm.cons c.name).trans (List.Perm.swap nm c.name (namesF cs'))
        · simp only [leafCountF, hleaf]; ring
        · simp only [internalCountF, hint]; ring
        · intro hb
          simp only [binaryF, Bool.and_eq_true] at hb
          obtain ⟨h1, h2⟩ := hbin hb.2
          exact ⟨h1, by simp [binaryF, hb.1, h2]⟩

/-! ### Index-pair selection lemmas -/

theorem foldl_if_mem (Q : ℕ → ℕ → ℚ) : ∀ (ps : List (ℕ × ℕ)) (p : ℕ × ℕ),
    ps.foldl (fun b q => if Q q.1 q.2 < Q b.1 b.2 then q else b) p ∈ p :: ps
  | [], p => by simp [List.foldl]
  | q :: ps, p => by
      simp only [List.foldl]
      by_cases h : Q q.1 q.2 < Q p.1 p.2
      · rw [if_pos h]
        have := foldl_if_mem Q ps q
        simp only [List.mem_cons] at this ⊢
        tauto
      · rw [if_neg h]
        have := foldl_if_mem Q ps p
        simp only [List.mem_cons] at this ⊢
        tauto

theorem offDiagPairs_mem {m : ℕ} {p : ℕ × ℕ} (h : p ∈ offDiagPairs m) :
    p.1 < m ∧ p.2 < m ∧ p.1 ≠ p.2 := by
  simp only [offDiagPairs, List.mem_filter, List.mem_flatMap, List.mem_map,
    List.mem_range, decide_eq_true_eq] at h
  obtain ⟨⟨i, hi, j, hj, hp⟩, hne⟩ := h
  subst hp
  exact ⟨hi, hj, hne⟩

theorem mem_offDiagPairs_01 {m : ℕ} (hm : 2 ≤ m) : ((0, 1) : ℕ × ℕ) ∈ offDiagPairs m := by
  simp only [offDiagPairs, List.mem_filter, List.mem_flatMap, List.mem_map, List.mem_range,
    decide_eq_true_eq]
  exact ⟨⟨0, by omega, 1, by omega, rfl⟩, by simp⟩

theorem argminQ_mem (Q : ℕ → ℕ → ℚ) {m : ℕ} (hm : 2 ≤ m) :
    argminQ Q m ∈ offDiagPairs m := by
  have h01 := mem_offDiagPairs_01 hm
  unfold argminQ
  cases hod : offDiagPairs m with
  | nil => rw [hod] at h01; exact absurd h01 (by simp)
  | cons p ps =>
      have := foldl_if_mem Q ps p
      rw [← hod] at this ⊢
      rw [hod]
      rw [hod] at this
      exact this

/-! ### Positional double deletion (`np.delete(internals, [i,j])`) -/

theorem perm_getD_eraseIdx : ∀ (l : List ℕ) (k : ℕ), k < l.length →
    l.Perm (l.getD k 0 :: l.eraseIdx k)
  | [], k, h => absurd h (by simp)
  | x :: xs, 0, _ => by simp [List.eraseIdx]
  | x :: xs, k + 1, h => by
      have hk : k < xs.length := by simpa using h
      have ih := perm_getD_eraseIdx xs k hk
      show (x :: xs).Perm (xs.getD k 0 :: x :: xs.eraseIdx k)
      exact (ih.cons x).trans (List.Perm.swap (xs.getD k 0) x (xs.eraseIdx k))

theorem perm_deleteIdx2_lt : ∀ (l : List ℕ) (i j : ℕ), i < j → j < l.length →
    l.Perm (l.getD i 0 :: l.getD j 0 :: (l.eraseIdx j).eraseIdx i)
  | [], _, _, _, h => absurd h (by simp)
  | x :: xs, 0, j + 1, _, h => by
      have hj : j < xs.length := by simpa using h
      have := (perm_getD_eraseIdx xs j hj).cons x
      simpa [List.eraseIdx] using this
  | x :: xs, i + 1, j + 1, hij, h => by
      have hij' : i < j := by omega
      have hj : j < xs.length := by simpa using h
      have ih := perm_deleteIdx2_lt xs i j hij' hj
      show (x :: xs).Perm (xs.getD i 0 :: xs.getD j 0 :: x :: (xs.eraseIdx j).eraseIdx i)
      have s1 : (x :: xs).Perm
          (x :: xs.getD i 0 :: xs.getD j 0 :: (xs.eraseIdx j).eraseIdx i) := ih.cons x
      have s2 : (x :: xs.getD i 0 :: xs.getD j 0 :: (xs.eraseIdx j).eraseIdx i).Perm
          (xs.getD i 0 :: x :: xs.getD j 0 :: (xs.eraseIdx j).eraseIdx i) :=
        List.Perm.swap (xs.getD i 0) x _
      have s3 : (xs.getD i 0 :: x :: xs.getD j 0 :: (xs.eraseIdx j).eraseIdx i).Perm
          (xs.getD i 0 :: xs.getD j 0 :: x :: (xs.eraseIdx j).eraseIdx i) :=
        (List.Perm.swap (xs.getD j 0) x _).cons _
      exact (s1.trans s2).trans s3

theorem perm_deleteIdx2 (l : List ℕ) (i j : ℕ) (hij : i ≠ j)
    (hi : i < l.length) (hj : j < l.length) :
    l.Perm (l.getD i 0 :: l.getD j 0 :: deleteIdx2 l i j) := by
  rcases lt_or_gt_of_ne hij with h | h
  · have := perm_deleteIdx2_lt l i j h hj
    unfold deleteIdx2
    rw [max_eq_right (le_of_lt h), min_eq_left (le_of_lt h)]
    exact this
  · have := perm_deleteIdx2_lt l j i h hi
    unfold deleteIdx2
    rw [max_eq_left (le_of_lt h), min_eq_right (le_of_lt h)]
    exact this.trans (List.Perm.swap _ _ _)

/-! ### The structural invariant of the joining loop -/

/-- Invariant of the `(root children, internals)` loop state for an
initial sample count `m₀`: root children correspond one-to-one (by name)
with the active internals, names are distinct and below the next fresh
name, every subtree is binary, and leaf/internal node counts add up. -/
def NJInvP (m₀ : ℕ) (cs : EForest) (ints : List ℕ) : Prop :=
  (namesF cs).Perm ints ∧ ints.Nodup ∧
    (∀ x ∈ ints, x + ints.length < 2 * m₀) ∧
    binaryF cs = true ∧ leafCountF cs = m₀ ∧
    internalCountF cs + ints.length = m₀

theorem njJoin_inv {m₀ : ℕ} {D : ℕ → ℕ → ℚ} {cs : EForest} {ints : List ℕ}
    {i j : ℕ} (h : NJInvP m₀ cs ints) (hm : 2 < ints.length)
    (hi : i < ints.length) (hj : j < ints.length) (hne : i ≠ j) :
    NJInvP m₀ (njJoin (2 * m₀ - 2) D cs ints i j).2.1
      (njJoin (2 * m₀ - 2) D cs ints i j).2.2 ∧
    (njJoin (2 * m₀ - 2) D cs ints i j).2.2.length + 1 = ints.length := by
  obtain ⟨hperm, hnd, hbound, hbin, hleaf, hint⟩ := h
  have hm0 : ints.length ≤ m₀ := by omega
  have hpermdel : ints.Perm (ints.getD i 0 :: ints.getD j 0 :: deleteIdx2 ints i j) :=
    perm_deleteIdx2 ints i j hne hi hj
  have hnd2 : (ints.getD i 0 :: ints.getD j 0 :: deleteIdx2 ints i j).Nodup :=
    hpermdel.nodup_iff.mp hnd
  have hdellen : ints.length = (deleteIdx2 ints i j).length + 2 := by
    have := hpermdel.length_eq
    simpa using this
  have hamem : ints.getD i 0 ∈ namesF cs :=
    hperm.mem_iff.mpr (hpermdel.mem_iff.mpr (by simp))
  obtain ⟨ca, cs1, hr1, hca, hp1, hl1, hi1, hb1⟩ :=
    removeChild_spec cs (ints.getD i 0) hamem
  have hp1' : (namesF cs1).Perm (ints.getD j 0 :: deleteIdx2 ints i j) := by
    have h1 : (ints.getD i 0 :: namesF cs1).Perm
        (ints.getD i 0 :: ints.getD j 0 :: deleteIdx2 ints i j) :=
      (hp1.symm.trans hperm).trans hpermdel
    exact h1.cons_inv
  have hbmem : ints.getD j 0 ∈ namesF cs1 := hp1'.mem_iff.mpr (by simp)
  obtain ⟨cb, cs2, hr2, hcb, hp2, hl2, hi2, hb2⟩ :=
    removeChild_spec cs1 (ints.getD j 0) hbmem
  have hp2' : (namesF cs2).Perm (deleteIdx2 ints i j) :=
    (hp2.symm.trans hp1').cons_inv
  -- the joined result
  have hjoin : njJoin (2 * m₀ - 2) D cs ints i j =
      (njD3 (2 * m₀ - 2) D ints i j,
       cs2.append (.cons (.node (njL (2 * m₀ - 2) ints) 1
         (.cons (ca.setDist ((pyInt (njVi D ints i j) : ℤ) : ℚ))
           (.cons (cb.setDist ((pyInt (njVj D ints i j) : ℤ) : ℚ)) .nil))) .nil),
       deleteIdx2 ints i j ++ [njL (2 * m₀ - 2) ints]) := by
    unfold njJoin
    rw [hr1]
    simp only
    rw [hr2]
  rw [hjoin]
  have hLval : njL (2 * m₀ - 2) ints = 2 * m₀ - ints.length := by
    unfold njL
    omega
  have hLfresh : ∀ x ∈ deleteIdx2 ints i j, x ≠ njL (2 * m₀ - 2) ints := by
    intro x hx
    have hxi : x ∈ ints := hpermdel.mem_iff.mpr (by simp [hx])
    have := hbound x hxi
    omega
  have hbin1 := hb1 hbin
  have hbin2 := hb2 hbin1.2
  refine ⟨⟨?_, ?_, ?_, ?_, ?_, ?_⟩, ?_⟩
  · -- name correspondence
    rw [namesF_append]
    simp only [namesF, ETree.name]
    exact hp2'.append_right _
  · -- distinct names
    rw [List.nodup_append]
    refine ⟨((List.nodup_cons.mp ((List.nodup_cons.mp hnd2).2)).2), by simp, ?_⟩
    intro x hx hxl
    simp only [List.mem_singleton] at hxl
    exact hLfresh x hx hxl
  · -- freshness bound
    intro x hx
    simp only [List.mem_append, List.mem_singleton] at hx
    have hlen : (deleteIdx2 ints i j ++ [njL (2 * m₀ - 2) ints]).length =
        ints.length - 1 := by
      simp only [List.length_append, List.length_singleton]
      omega
    rw [hlen]
    rcases hx with hx | hx
    · have hxi : x ∈ ints := hpermdel.mem_iff.mpr (by simp [hx])
      have := hbound x hxi
      omega
    · subst hx
      omega
  · -- binary
    rw [binaryF_append]
    have hx : binaryT (ca.setDist ((pyInt (njVi D ints i j) : ℤ) : ℚ)) = true := by
      rw [setDist_binary]; exact hbin1.1
    have hy : binaryT (cb.setDist ((pyInt (njVj D ints i j) : ℤ) : ℚ)) = true := by
      rw [setDist_binary]; exact hbin2.1
    simp [binaryF, binaryT, lengthF, hbin2.2, hx, hy]
  · -- leaf count
    rw [leafCountF_append]
    simp only [leafCountF, leafCountT, setDist_leafCount]
    omega
  · -- internal count
    rw [internalCountF_append]
    simp only [internalCountF, internalCountT, setDist_internalCount,
      List.length_append, List.length_singleton]
    omega
  · simp only [List.length_append, List.length_singleton]
    omega

theorem njStep_eq (lenD : ℕ) (D : ℕ → ℕ → ℚ) (cs : EForest) (ints : List ℕ) :
    njStep lenD D cs ints =
      njJoin lenD D cs ints (argminQ (njQ D ints) ints.length).1
        (argminQ (njQ D ints) ints.length).2 := rfl

theorem njStep_inv {m₀ : ℕ} (D : ℕ → ℕ → ℚ) {cs : EForest} {ints : List ℕ}
    (h : NJInvP m₀ cs ints) (hm : 2 < ints.length) :
    NJInvP m₀ (njStep (2 * m₀ - 2) D cs ints).2.1
      (njStep (2 * m₀ - 2) D cs ints).2.2 ∧
    (njStep (2 * m₀ - 2) D cs ints).2.2.length + 1 = ints.length := by
  obtain ⟨hi, hj, hne⟩ :=
    offDiagPairs_mem (argminQ_mem (njQ D ints) (by omega : 2 ≤ ints.length))
  rw [njStep_eq]
  exact njJoin_inv h hm hi hj hne

theorem njLoop_inv (m₀ : ℕ) : ∀ (fuel : ℕ) (s : (ℕ → ℕ → ℚ) × EForest × List ℕ),
    NJInvP m₀ s.2.1 s.2.2 → 2 ≤ s.2.2.length → s.2.2.length ≤ fuel + 2 →
    NJInvP m₀ (njLoop (2 * m₀ - 2) fuel s).2.1 (njLoop (2 * m₀ - 2) fuel s).2.2 ∧
      (njLoop (2 * m₀ - 2) fuel s).2.2.length = 2
  | 0, s, h, h2, hle => by
      have : s.2.2.length = 2 := by omega
      simp only [njLoop]
      exact ⟨h, this⟩
  | fuel + 1, s, h, h2, hle => by
      simp only [njLoop]
      by_cases hgt : 2 < s.2.2.length
      · rw [if_pos hgt]
        obtain ⟨hinv, hlen⟩ := njStep_inv s.1 h hgt
        exact njLoop_inv m₀ fuel _ hinv (by omega) (by omega)
      · rw [if_neg hgt]
        exact ⟨h, by omega⟩

/-- Properties of the star forest `init_star_tree` builds. -/
theorem starForest_props : ∀ L : List ℕ,
    namesF (ofListE (L.map (fun i => ETree.node i 1 .nil))) = L ∧
    leafCountF (ofListE (L.map (fun i => ETree.node i 1 .nil))) = L.length ∧
    internalCountF (ofListE (L.map (fun i => ETree.node i 1 .nil))) = 0 ∧
    binaryF (ofListE (L.map (fun i => ETree.node i 1 .nil))) = true
  | [] => by simp [ofListE, namesF, leafCountF, internalCountF, binaryF]
  | x :: L => by
      obtain ⟨h1, h2, h3, h4⟩ := starForest_props L
      simp only [List.map_cons, ofListE, namesF, leafCountF, internalCountF,
        binaryF, ETree.name, leafCountT, internalCountT, binaryT, List.length_cons]
      exact ⟨by simp [h1], by omega, by omega, h4⟩

/-- Claim C4 (amended): for every distance matrix over `m ≥ 3` active
nodes, `neighbor_joining` produces a single binary tree whose root has
exactly two children, with exactly `m` leaves and `m-2` non-root internal
nodes.  Branch lengths are NOT all nonnegative (see the counterexample);
the join-time lengths are stored as truncated integers and can be
negative. -/
theorem neighbor_joining_structure (m : ℕ) (D : ℕ → ℕ → ℚ) (hm : 3 ≤ m) :
    lengthF (neighbor_joining (2 * m - 2) D (init_star_tree m) (List.range m)).children = 2 ∧
    binaryF (neighbor_joining (2 * m - 2) D (init_star_tree m) (List.range m)).children = true ∧
    leafCountF (neighbor_joining (2 * m - 2) D (init_star_tree m) (List.range m)).children = m ∧
    internalCountF (neighbor_joining (2 * m - 2) D (init_star_tree m) (List.range m)).children
      = m - 2 := by
  obtain ⟨hn, hl, hic, hb⟩ := starForest_props (List.range m)
  have hinit : NJInvP m (init_star_tree m).children (List.range m) := by
    refine ⟨?_, List.nodup_range m, ?_, ?_, ?_, ?_⟩
    · simp only [init_star_tree, ETree.children]
      rw [hn]
    · intro x hx
      rw [List.mem_range] at hx
      rw [List.length_range]
      omega
    · simpa only [init_star_tree, ETree.children] using hb
    · simp only [init_star_tree, ETree.children]
      rw [hl, List.length_range]
    · simp only [init_star_tree, ETree.children]
      rw [hic, List.length_range]
      omega
  have hrange2 : 2 ≤ (List.range m).length := by
    rw [List.length_range]; omega
  have hrangef : (List.range m).length ≤ (List.range m).length + 2 := by omega
  obtain ⟨⟨hperm, _, _, hbin, hleaf, hint⟩, hlen2⟩ :=
    njLoop_inv m (List.range m).length
      (D, (init_star_tree m).children, List.range m) hinit hrange2 hrangef
  have hchild : (neighbor_joining (2 * m - 2) D (init_star_tree m) (List.range m)).children =
      (njLoop (2 * m - 2) (List.range m).length
        (D, (init_star_tree m).children, List.range m)).2.1 := rfl
  rw [hchild]
  refine ⟨?_, hbin, hleaf, by omega⟩
  rw [lengthF_namesF, hperm.length_eq, hlen2]

theorem neighbor_joining_structure_witness :
    3 ≤ 3 ∧
    (lengthF (neighbor_joining (2 * 3 - 2) (fun _ _ => 0) (init_star_tree 3)
        (List.range 3)).children = 2 ∧
      binaryF (neighbor_joining (2 * 3 - 2) (fun _ _ => 0) (init_star_tree 3)
        (List.range 3)).children = true ∧
      leafCountF (neighbor_joining (2 * 3 - 2) (fun _ _ => 0) (init_star_tree 3)
        (List.range 3)).children = 3 ∧
      internalCountF (neighbor_joining (2 * 3 - 2) (fun _ _ => 0) (init_star_tree 3)
        (List.range 3)).children = 3 - 2) :=
  ⟨by norm_num, neighbor_joining_structure 3 (fun _ _ => 0) (by norm_num)⟩

/-- A symmetric, nonnegative distance matrix on which neighbor joining
stores a negative branch length (`int(vi) = -48`). -/
def Dneg : ℕ → ℕ → ℚ := fun a b =>
  if a = 0 ∧ b = 1 ∨ a = 1 ∧ b = 0 then 2
  else if a = 0 ∧ b = 2 ∨ a = 2 ∧ b = 0 then 1
  else if a = 1 ∧ b = 2 ∨ a = 2 ∧ b = 1 then 100
  else 0

theorem Dneg_symm (a b : ℕ) : Dneg a b = Dneg b a := by
  simp only [Dneg]
  split_ifs <;> first | rfl | omega

theorem Dneg_nonneg (a b : ℕ) : 0 ≤ Dneg a b := by
  simp only [Dneg]
  split_ifs <;> norm_num

/-- Claim C4 counterexample: on the symmetric nonnegative matrix `Dneg`
over 3 active nodes the produced tree stores the branch length `-48 < 0`
(`vi = (2 + 3 - 102)/2 = -48.5`, truncated to `-48`). -/
theorem neighbor_joining_nonneg_counterexample :
    (∀ a b, Dneg a b = Dneg b a) ∧ (∀ a b, 0 ≤ Dneg a b) ∧
    allBranchDists (neighbor_joining (2 * 3 - 2) Dneg (init_star_tree 3)
      (List.range 3)) = [1, 1, -48, 50] ∧
    ¬ (∀ q ∈ allBranchDists (neighbor_joining (2 * 3 - 2) Dneg (init_star_tree 3)
        (List.range 3)), 0 ≤ q) := by
  have h1 : ((-97 : ℤ)).tdiv 2 = -48 := by decide
  have h2 : ((97 : ℤ)).tdiv 2 = 48 := by decide
  have h3 : ((101 : ℤ)).tdiv 2 = 50 := by decide
  have heval : allBranchDists (neighbor_joining (2 * 3 - 2) Dneg (init_star_tree 3)
      (List.range 3)) = [1, 1, -48, 50] := by
    norm_num [neighbor_joining, njLoop, njStep, njJoin, njD3, njD1, njD, njU, njQ,
      njL, njVi, njVj, argminQ, offDiagPairs, Dneg, init_star_tree, ofListE,
      removeChild, deleteIdx2, updSym, upd, pyInt, allBranchDists, distsT, distsF,
      ETree.setDist, ETree.children, ETree.name, ETree.dist, EForest.append,
      List.range_succ, List.foldl, List.flatMap, List.filter, List.map, h1, h2, h3]
  refine ⟨Dneg_symm, Dneg_nonneg, heval, ?_⟩
  intro hall
  have := hall (-48) (by rw [heval]; simp)
  norm_num at this

/-! ### The distance updates of a join step (claim C5) -/

theorem updSym_ab (D : ℕ → ℕ → ℚ) (a b : ℕ) (v : ℚ) : updSym D a b v a b = v := by
  by_cases h : a = b <;> simp [updSym, upd, h]

theorem updSym_ba (D : ℕ → ℕ → ℚ) (a b : ℕ) (v : ℚ) : updSym D a b v b a = v := by
  simp [updSym, upd]

theorem updSym_miss (D : ℕ → ℕ → ℚ) (a b : ℕ) (v : ℚ) {x y : ℕ}
    (h1 : ¬(x = a ∧ y = b)) (h2 : ¬(x = b ∧ y = a)) : updSym D a b v x y = D x y := by
  simp only [updSym, upd, if_neg h2, if_neg h1]

theorem foldUpd_miss (l : ℕ) (key : ℕ → ℕ) (vals : ℕ → ℚ) :
    ∀ (ks : List ℕ) (D : ℕ → ℕ → ℚ) (x y : ℕ),
      (∀ k ∈ ks, ¬(x = l ∧ y = key k) ∧ ¬(x = key k ∧ y = l)) →
      ks.foldl (fun Dk k => updSym Dk l (key k) (vals k)) D x y = D x y
  | [], _, _, _, _ => rfl
  | k :: ks, D, x, y, h => by
      have hk := h k (by simp)
      have hrest : ∀ k' ∈ ks, ¬(x = l ∧ y = key k') ∧ ¬(x = key k' ∧ y = l) :=
        fun k' hk' => h k' (by simp [hk'])
      simp only [List.foldl_cons]
      rw [foldUpd_miss l key vals ks _ x y hrest]
      exact updSym_miss D l (key k) (vals k) hk.1 hk.2

theorem foldUpd_hit (l : ℕ) (key : ℕ → ℕ) (vals : ℕ → ℚ) :
    ∀ (ks : List ℕ) (D : ℕ → ℕ → ℚ) (k₀ : ℕ), k₀ ∈ ks →
      (∀ k ∈ ks, key k ≠ l) → l ≠ key k₀ →
      (∀ k ∈ ks, key k = key k₀ → k = k₀) → ks.Nodup →
      ks.foldl (fun Dk k => updSym Dk l (key k) (vals k)) D l (key k₀) = vals k₀ ∧
      ks.foldl (fun Dk k => updSym Dk l (key k) (vals k)) D (key k₀) l = vals k₀
  | [], _, _, hmem, _, _, _, _ => absurd hmem (by simp)
  | k :: ks, D, k₀, hmem, hkl, hlk, hinj, hnd => by
      simp only [List.foldl_cons]
      by_cases hk : k = k₀
      · subst hk
        have hnotin : k ∉ ks := (List.nodup_cons.mp hnd).1
        have hne : ∀ k' ∈ ks, key k' ≠ key k := by
          intro k' hk' he
          exact hnotin (by
            have := hinj k' (by simp [hk']) he
            rwa [this] at hk')
        constructor
        · rw [foldUpd_miss l key vals ks _ l (key k)
            (fun k' hk' => ⟨fun hc => hne k' hk' hc.2.symm,
              fun hc => hne k' hk' (hc.1.symm.trans hc.2.symm)⟩)]
          exact updSym_ab D l (key k) (vals k)
        · rw [foldUpd_miss l key vals ks _ (key k) l
            (fun k' hk' => ⟨fun hc => hlk hc.1.symm, fun hc => hne k' hk' hc.1.symm⟩)]
          exact updSym_ba D l (key k) (vals k)
      · have hmem' : k₀ ∈ ks := by
          rcases List.mem_cons.mp hmem with h | h
          · exact absurd h.symm hk
          · exact h
        exact foldUpd_hit l key vals ks _ k₀ hmem'
          (fun k' hk' => hkl k' (by simp [hk'])) hlk
          (fun k' hk' => hinj k' (by simp [hk'])) (List.nodup_cons.mp hnd).2

theorem getD_mem_of_lt (L : List ℕ) (k : ℕ) (h : k < L.length) : L.getD k 0 ∈ L := by
  rw [List.getD_eq_getElem L 0 h]
  exact List.getElem_mem h

theorem nodup_getD_inj (L : List ℕ) (hnd : L.Nodup) {a b : ℕ}
    (ha : a < L.length) (hb : b < L.length) (he : L.getD a 0 = L.getD b 0) : a = b := by
  rw [List.getD_eq_getElem L 0 ha, List.getD_eq_getElem L 0 hb] at he
  exact (List.Nodup.getElem_inj_iff hnd).1 he

theorem lastChildF_append_single : ∀ (cs : EForest) (t : ETree),
    lastChildF (cs.append (.cons t .nil)) = some t
  | .nil, _ => rfl
  | .cons c cs, t => by
      cases cs with
      | nil => rfl
      | cons c' cs' => exact lastChildF_append_single (.cons c' cs') t

/-- `D[l,·]` values after the `for k in xrange(m)` loop of a join. -/
theorem njD1_val {lenD : ℕ} {D : ℕ → ℕ → ℚ} {ints : List ℕ} {i j : ℕ}
    (hnd : ints.Nodup) (hfree : ∀ x ∈ ints, x ≠ njL lenD ints)
    (k : ℕ) (hk : k < ints.length) :
    njD1 lenD D ints i j (njL lenD ints) (ints.getD k 0) =
      njD D ints i k + njD D ints j k - njD D ints i j ∧
    njD1 lenD D ints i j (ints.getD k 0) (njL lenD ints) =
      njD D ints i k + njD D ints j k - njD D ints i j := by
  unfold njD1
  exact foldUpd_hit (njL lenD ints) (fun a => ints.getD a 0)
    (fun a => njD D ints i a + njD D ints j a - njD D ints i j)
    (List.range ints.length) D k (List.mem_range.mpr hk)
    (fun k' hk' => hfree _ (getD_mem_of_lt ints k' (List.mem_range.mp hk')))
    (fun he => hfree _ (getD_mem_of_lt ints k hk) he.symm)
    (fun k' hk' he => nodup_getD_inj ints hnd (List.mem_range.mp hk') hk he)
    (List.nodup_range _)

/-- Claim C5 (amended): in every join of the active pair `(i,j)` into the
fresh node `l`, the distance stored from `l` to every other active node
`k` is `d[i,k]+d[j,k]-d[i,j]` — the raw sum, NOT halved — while the two
branch lengths attached to the tree are `(d[i,j]+u[i]-u[j])/2` and its
mirror image, truncated to integers. -/
theorem njStep_update_spec (lenD : ℕ) (D : ℕ → ℕ → ℚ) (cs : EForest)
    (ints : List ℕ) (hm : 2 < ints.length) (hnd : ints.Nodup)
    (hfree : ∀ x ∈ ints, x ≠ njL lenD ints) (hperm : (namesF cs).Perm ints) :
    let i := (argminQ (njQ D ints) ints.length).1
    let j := (argminQ (njQ D ints) ints.length).2
    (∀ k, k < ints.length → k ≠ i → k ≠ j →
      (njStep lenD D cs ints).1 (njL lenD ints) (ints.getD k 0) =
        njD D ints i k + njD D ints j k - njD D ints i j ∧
      (njStep lenD D cs ints).1 (ints.getD k 0) (njL lenD ints) =
        njD D ints i k + njD D ints j k - njD D ints i j) ∧
    (njStep lenD D cs ints).1 (njL lenD ints) (ints.getD i 0) = njVi D ints i j ∧
    (njStep lenD D cs ints).1 (ints.getD i 0) (njL lenD ints) = njVi D ints i j ∧
    (njStep lenD D cs ints).1 (njL lenD ints) (ints.getD j 0) = njVj D ints i j ∧
    (njStep lenD D cs ints).1 (ints.getD j 0) (njL lenD ints) = njVj D ints i j ∧
    (∃ t : ETree, lastChildF (njStep lenD D cs ints).2.1 = some t ∧
      t.name = njL lenD ints ∧
      topDistsF t.children = [((pyInt (njVi D ints i j) : ℤ) : ℚ),
        ((pyInt (njVj D ints i j) : ℤ) : ℚ)]) := by
  intro i j
  obtain ⟨hi, hj, hne⟩ :=
    offDiagPairs_mem (argminQ_mem (njQ D ints) (by omega : 2 ≤ ints.length))
  have hgi : ints.getD i 0 ∈ ints := getD_mem_of_lt ints i hi
  have hgj : ints.getD j 0 ∈ ints := getD_mem_of_lt ints j hj
  have hgij : ints.getD i 0 ≠ ints.getD j 0 :=
    fun he => hne (nodup_getD_inj ints hnd hi hj he)
  have hil : ints.getD i 0 ≠ njL lenD ints := hfree _ hgi
  have hjl : ints.getD j 0 ≠ njL lenD ints := hfree _ hgj
  -- the D component of the step result is njD3
  have hD : (njStep lenD D cs ints).1 = njD3 lenD D ints i j := by
    rw [njStep_eq]
    unfold njJoin
    simp only
    cases (removeChild cs (ints.getD i 0)).2 <;>
      cases (removeChild (removeChild cs (ints.getD i 0)).1 (ints.getD j 0)).2 <;> rfl
  refine ⟨?_, ?_, ?_, ?_, ?_, ?_⟩
  · intro k hk hki hkj
    have hgki : ints.getD k 0 ≠ ints.getD i 0 :=
      fun he => hki (nodup_getD_inj ints hnd hk hi he)
    have hgkj : ints.getD k 0 ≠ ints.getD j 0 :=
      fun he => hkj (nodup_getD_inj ints hnd hk hj he)
    have hkl : ints.getD k 0 ≠ njL lenD ints := hfree _ (getD_mem_of_lt ints k hk)
    rw [hD]
    unfold njD3
    constructor
    · rw [updSym_miss _ _ _ _ (fun hc => hgkj hc.2) (fun hc => hjl hc.1.symm),
        updSym_miss _ _ _ _ (fun hc => hgki hc.2) (fun hc => hil hc.1.symm)]
      exact (njD1_val hnd hfree k hk).1
    · rw [updSym_miss _ _ _ _ (fun hc => hkl hc.1) (fun hc => hgkj hc.1),
        updSym_miss _ _ _ _ (fun hc => hkl hc.1) (fun hc => hgki hc.1)]
      exact (njD1_val hnd hfree k hk).2
  · rw [hD]
    unfold njD3
    rw [updSym_miss _ _ _ _ (fun hc => hgij hc.2) (fun hc => hjl hc.1.symm)]
    exact updSym_ab _ _ _ _
  · rw [hD]
    unfold njD3
    rw [updSym_miss _ _ _ _ (fun hc => hil hc.1) (fun hc => hgij hc.1)]
    exact updSym_ba _ _ _ _
  · rw [hD]
    unfold njD3
    exact updSym_ab _ _ _ _
  · rw [hD]
    unfold njD3
    exact updSym_ba _ _ _ _
  · -- the freshly attached node and its children's branch lengths
    have hamem : ints.getD i 0 ∈ namesF cs := hperm.mem_iff.mpr hgi
    obtain ⟨ca, cs1, hr1, hca, hp1, _, _, _⟩ := removeChild_spec cs (ints.getD i 0) hamem
    have hbmem : ints.getD j 0 ∈ namesF cs1 := by
      have h1 : (ints.getD i 0 :: namesF cs1).Perm ints := hp1.symm.trans hperm
      have h2 : ints.getD j 0 ∈ ints.getD i 0 :: namesF cs1 := h1.mem_iff.mpr hgj
      rcases List.mem_cons.mp h2 with h | h
      · exact absurd h.symm hgij
      · exact h
    obtain ⟨cb, cs2, hr2, hcb, _, _, _, _⟩ := removeChild_spec cs1 (ints.getD j 0) hbmem
    have hforest : (njStep lenD D cs ints).2.1 =
        cs2.append (.cons (.node (njL lenD ints) 1
          (.cons (ca.setDist ((pyInt (njVi D ints i j) : ℤ) : ℚ))
            (.cons (cb.setDist ((pyInt (njVj D ints i j) : ℤ) : ℚ)) .nil))) .nil) := by
      rw [njStep_eq]
      unfold njJoin
      rw [hr1]
      simp only
      rw [hr2]
    refine ⟨ETree.node (njL lenD ints) 1
        (.cons (ca.setDist ((pyInt (njVi D ints i j) : ℤ) : ℚ))
          (.cons (cb.setDist ((pyInt (njVj D ints i j) : ℤ) : ℚ)) .nil)), ?_, rfl, ?_⟩
    · rw [hforest]
      exact lastChildF_append_single _ _
    · simp [ETree.children, topDistsF, setDist_dist]

/-- A simple symmetric distance matrix used to exercise one join step. -/
def Dex2 : ℕ → ℕ → ℚ := fun a b =>
  if a = 0 ∧ b = 1 ∨ a = 1 ∧ b = 0 then 2
  else if a = 0 ∧ b = 2 ∨ a = 2 ∧ b = 0 then 4
  else if a = 1 ∧ b = 2 ∨ a = 2 ∧ b = 1 then 6
  else 0

theorem njStep_update_spec_witness :
    (njStep 4 Dex2 (init_star_tree 3).children [0, 1, 2]).1 3 2 =
      njD Dex2 [0, 1, 2] 0 2 + njD Dex2 [0, 1, 2] 1 2 - njD Dex2 [0, 1, 2] 0 1 := by
  have hij : argminQ (njQ Dex2 [0, 1, 2]) ([0, 1, 2] : List ℕ).length = (0, 1) := by
    norm_num [argminQ, offDiagPairs, njQ, njD, njU, Dex2, List.range_succ,
      List.foldl, List.flatMap, List.filter, List.map]
  have h := njStep_update_spec 4 Dex2 (init_star_tree 3).children [0, 1, 2]
    (by norm_num) (by decide) (by decide) (by decide)
  simp only [hij] at h
  exact (h.1 2 (by norm_num) (by norm_num) (by norm_num)).1

/-- Claim C5 counterexample: in the join of `(0,1)` on `Dex2`, the stored
distance from the new node `3` to the remaining node `2` is
`d[0,2]+d[1,2]-d[0,1] = 8`, not its half `4` as the claim states. -/
theorem njStep_halving_counterexample :
    (njStep 4 Dex2 (init_star_tree 3).children [0, 1, 2]).1 3 2 = 8 ∧
    (njStep 4 Dex2 (init_star_tree 3).children [0, 1, 2]).1 3 2 ≠
      (Dex2 0 2 + Dex2 1 2 - Dex2 0 1) / 2 := by
  have heval : (njStep 4 Dex2 (init_star_tree 3).children [0, 1, 2]).1 3 2 = 8 := by
    norm_num [njStep, njJoin, njD3, njD1, njD, njU, njQ, njL, njVi, njVj, argminQ,
      offDiagPairs, Dex2, init_star_tree, ofListE, removeChild, deleteIdx2,
      updSym, upd, ETree.children, ETree.name, List.range_succ, List.foldl,
      List.flatMap, List.filter, List.map]
  refine ⟨heval, ?_⟩
  rw [heval]
  norm_num [Dex2]

/-! ## The tree likelihood propagator (`calc_mut_likelihoods`, `update_PL`).

An `ete2` node carries ad-hoc attributes `sid`, `PL0` and (for internal
nodes) `PLm`; we model it as a tree/forest mutual inductive whose node
holds the children, the recorded `sid`, the `PL0` matrix (a total
function over site and genotype indices — its shape plays no role in the
claims below) and an optional `PLm` tensor whose leading shape `rows` is
explicit, because the claims are about that row count.  Leaf names are
recorded in `sid` (`init_tree` sets a leaf's `sid` to `[int(name)]`, and
`sorted(map(int, child.get_leaf_names()))` is the sort of the leaf `sid`s
below the child). -/

/-- A `PLm` tensor: `rows` copies of a site×genotype matrix. -/
structure Tensor3 where
  rows : ℕ
  val : ℕ → ℕ → ℕ → ℝ

mutual
inductive LTree : Type where
  | mk (children : LForest) (sid : List ℕ) (PL0 : ℕ → ℕ → ℝ) (PLm : Option Tensor3)
inductive LForest : Type where
  | nil : LForest
  | cons : LTree → LForest → LForest
end

def LTree.children : LTree → LForest
  | .mk cs _ _ _ => cs

def LTree.sid : LTree → List ℕ
  | .mk _ s _ _ => s

def LTree.PL0 : LTree → ℕ → ℕ → ℝ
  | .mk _ _ p _ => p

def LTree.PLm : LTree → Option Tensor3
  | .mk _ _ _ m => m

/-- `child.sid = sid` (the assignment inside `update_PL`). -/
def LTree.setSid : LTree → List ℕ → LTree
  | .mk cs _ p m, s => .mk cs s p m

def isLeafT : LTree → Bool
  | .mk .nil _ _ _ => true
  | .mk (.cons _ _) _ _ _ => false

mutual
def leafCountLT : LTree → ℕ
  | .mk .nil _ _ _ => 1
  | .mk (.cons c cs) _ _ _ => leafCountLF (.cons c cs)
def leafCountLF : LForest → ℕ
  | .nil => 0
  | .cons c cs => leafCountLT c + leafCountLF cs
end

mutual
def leafIdsT : LTree → List ℕ
  | .mk .nil s _ _ => s
  | .mk (.cons c cs) _ _ _ => leafIdsF (.cons c cs)
def leafIdsF : LForest → List ℕ
  | .nil => []
  | .cons c cs => leafIdsT c ++ leafIdsF cs
end

/-- Insertion sort on `ℕ` (Python `sorted` — on naturals any sort yields
the same list). -/
def insertSorted (x : ℕ) : List ℕ → List ℕ
  | [] => [x]
  | y :: ys => if x ≤ y then x :: y :: ys else y :: insertSorted x ys

def sortNat : List ℕ → List ℕ
  | [] => []
  | x :: xs => insertSorted x (sortNat xs)

/-- `sorted(map(int, child.get_leaf_names()))`. -/
def sortedLeafIds (t : LTree) : List ℕ := sortNat (leafIdsT t)

/-- `p2phred(np.dot(phred2p(M), mm))` over the 3-genotype alphabet. -/
noncomputable def matMut (M : ℕ → ℕ → ℝ) (mm : ℕ → ℕ → ℝ) : ℕ → ℕ → ℝ :=
  fun s g => p2phred (∑ g' ∈ Finset.range 3, phred2p (M s g') * mm g' g)

/-- `node.PLm[i] = v`. -/
def Tensor3.setRow (T : Tensor3) (i : ℕ) (v : ℕ → ℕ → ℝ) : Tensor3 :=
  ⟨T.rows, fun r s g => if r = i then v s g else T.val r s g⟩

/-- `node.PLm[i:(i+len)] = v`. -/
def Tensor3.setSlice (T : Tensor3) (i len : ℕ) (v : ℕ → ℕ → ℕ → ℝ) : Tensor3 :=
  ⟨T.rows, fun r s g => if i ≤ r ∧ r < i + len then v (r - i) s g else T.val r s g⟩

def eraseIdxF : LForest → ℕ → LForest
  | .nil, _ => .nil
  | .cons _ cs, 0 => cs
  | .cons c cs, k + 1 => .cons c (eraseIdxF cs k)

def headDF : LForest → LTree → LTree
  | .nil, d => d
  | .cons c _, _ => c

def junkLTree : LTree := .mk .nil [] (fun _ _ => 0) none

def junkTensor : Tensor3 := ⟨0, fun _ _ _ => 0⟩

/-- `child.get_sisters()[0]` for the `k`-th child: siblings are compared
by identity in `ete2`, i.e. positionally.  The junk default is reached
only when a node has a single child, where the Python indexes an empty
list — no such node occurs in the binary trees this code runs on. -/
def sisterOf (all : LForest) (k : ℕ) : LTree := headDF (eraseIdxF all k) junkLTree

/-- The `for child in node.children` fill loop shared by
`calc_mut_likelihoods` and `update_PL`: `k` is the child's position
(used for the sister), `i` the running row index. -/
noncomputable def fillGo (mm0 mm1 : ℕ → ℕ → ℝ) (all : LForest) :
    ℕ → ℕ → Tensor3 → LForest → Tensor3
  | _, _, T, .nil => T
  | k, i, T, .cons c rest =>
      let sister := sisterOf all k
      let step1 : ℕ × Tensor3 :=
        if isLeafT c then (i, T)
        else
          let Tc := c.PLm.getD junkTensor
          (i + Tc.rows,
           T.setSlice i Tc.rows (fun r s g =>
             matMut (Tc.val r) mm0 s g + matMut sister.PL0 mm0 s g))
      let T2 := step1.2.setRow step1.1 (fun s g =>
        matMut c.PL0 mm1 s g + matMut sister.PL0 mm0 s g)
      fillGo mm0 mm1 all (k + 1) (step1.1 + 1) T2 rest

noncomputable def fillPLm (mm0 mm1 : ℕ → ℕ → ℝ) (cs : LForest) (T : Tensor3) :
    Tensor3 :=
  fillGo mm0 mm1 cs 0 0 T cs

mutual
/-- `calc_mut_likelihoods(tree, mm0, mm1)`: allocate
`PLm = zeros((2*len(node)-2, n, g))` for every non-leaf node and fill it
post-order (children are processed before their parent, so a parent reads
its children's filled `PLm`). -/
noncomputable def calc_mut_likelihoods (mm0 mm1 : ℕ → ℕ → ℝ) : LTree → LTree
  | .mk .nil sid pl0 plm => .mk .nil sid pl0 plm
  | .mk (.cons c cs) sid pl0 _ =>
      let cs' := calcMutF mm0 mm1 (.cons c cs)
      .mk cs' sid pl0 (some (fillPLm mm0 mm1 cs'
        ⟨2 * leafCountLF (.cons c cs) - 2, fun _ _ _ => 0⟩))
noncomputable def calcMutF (mm0 mm1 : ℕ → ℕ → ℝ) : LForest → LForest
  | .nil => .nil
  | .cons c cs => .cons (calc_mut_likelihoods mm0 mm1 c) (calcMutF mm0 mm1 cs)
end

/-- `node.PL0 += p2phred(np.dot(phred2p(child.PL0), mm0))` over the
children (starting from the zero fill). -/
noncomputable def sumChildPL0 (mm0 : ℕ → ℕ → ℝ) : LForest → ℕ → ℕ → ℝ
  | .nil => fun _ _ => 0
  | .cons c cs => fun s g => matMut c.PL0 mm0 s g + sumChildPL0 mm0 cs s g

mutual
/-- `update_PL(node, mm0, mm1)`: recompute `PL0` from the children after
recursively repairing any child whose recorded `sid` differs from the
sorted leaf ids below it (`child.sid = sid` is assigned after the
recursive repair), reallocate `PLm = zeros((2*len(node)-2, n, g))` and
refill it. -/
noncomputable def update_PL (mm0 mm1 : ℕ → ℕ → ℝ) : LTree → LTree
  | .mk cs sid pl0 plm =>
      let cs' := updChildrenF mm0 mm1 cs
      .mk cs' sid (fun s g => sumChildPL0 mm0 cs' s g)
        (some (fillPLm mm0 mm1 cs'
          ⟨2 * leafCountLT (.mk cs sid pl0 plm) - 2, fun _ _ _ => 0⟩))
noncomputable def updChildrenF (mm0 mm1 : ℕ → ℕ → ℝ) : LForest → LForest
  | .nil => .nil
  | .cons c cs =>
      .cons (if c.sid ≠ sortedLeafIds c
              then (update_PL mm0 mm1 c).setSid (sortedLeafIds c)
              else c)
        (updChildrenF mm0 mm1 cs)
end

/-! ### Shape predicates -/

mutual
/-- Claim C7's invariant: every non-leaf node's `PLm` has exactly
`2·leaves−2` rows, and leaf nodes carry no `PLm`. -/
def rowInvT : LTree → Bool
  | .mk .nil _ _ plm => plm.isNone
  | .mk (.cons c cs) _ _ plm =>
      (match plm with
       | some T => T.rows == 2 * leafCountLF (.cons c cs) - 2
       | none => false) && rowInvF (.cons c cs)
def rowInvF : LForest → Bool
  | .nil => true
  | .cons c cs => rowInvT c && rowInvF cs
end

mutual
/-- No leaf carries a `PLm` (the state `populate_tree_PL` leaves the tree
in, before mutation-likelihood population). -/
def leavesNoneT : LTree → Bool
  | .mk .nil _ _ plm => plm.isNone
  | .mk (.cons c cs) _ _ _ => leavesNoneF (.cons c cs)
def leavesNoneF : LForest → Bool
  | .nil => true
  | .cons c cs => leavesNoneT c && leavesNoneF cs
end

mutual
/-- Every leaf's recorded `sid` is sorted — true of every tree the code
builds, since `init_tree` sets a leaf's `sid` to the singleton
`[int(name)]` and assignments only ever store sorted lists. -/
def leafSidsOkT : LTree → Bool
  | .mk .nil s _ _ => sortNat s == s
  | .mk (.cons c cs) _ _ _ => leafSidsOkF (.cons c cs)
def leafSidsOkF : LForest → Bool
  | .nil => true
  | .cons c cs => leafSidsOkT c && leafSidsOkF cs
end

theorem andE {a b : Bool} (h : (a && b) = true) : a = true ∧ b = true := by
  simp only [Bool.and_eq_true] at h
  exact h

/-! ### Sorting lemmas -/

theorem insertSorted_perm (x : ℕ) : ∀ l : List ℕ, (insertSorted x l).Perm (x :: l)
  | [] => .refl _
  | y :: ys => by
      unfold insertSorted
      by_cases h : x ≤ y
      · rw [if_pos h]
      · rw [if_neg h]
        exact ((insertSorted_perm x ys).cons y).trans (List.Perm.swap x y ys)

theorem sortNat_perm : ∀ l : List ℕ, (sortNat l).Perm l
  | [] => .refl _
  | x :: xs => (insertSorted_perm x (sortNat xs)).trans ((sortNat_perm xs).cons x)

theorem insertSorted_sorted (x : ℕ) : ∀ l : List ℕ,
    l.Sorted (· ≤ ·) → (insertSorted x l).Sorted (· ≤ ·)
  | [], _ => by simp [insertSorted]
  | y :: ys, h => by
      unfold insertSorted
      obtain ⟨hy, hys⟩ := List.sorted_cons.mp h
      by_cases hxy : x ≤ y
      · rw [if_pos hxy]
        refine List.sorted_cons.mpr ⟨?_, h⟩
        intro b hb
        rcases List.mem_cons.mp hb with rfl | hbys
        · exact hxy
        · exact hxy.trans (hy b hbys)
      · rw [if_neg hxy]
        refine List.sorted_cons.mpr ⟨?_, insertSorted_sorted x ys hys⟩
        intro b hb
        have hmem : b ∈ x :: ys := (insertSorted_perm x ys).mem_iff.mp hb
        rcases List.mem_cons.mp hmem with rfl | hbys
        · omega
        · exact hy b hbys

theorem sortNat_sorted : ∀ l : List ℕ, (sortNat l).Sorted (· ≤ ·)
  | [] => by simp [sortNat]
  | x :: xs => insertSorted_sorted x (sortNat xs) (sortNat_sorted xs)

theorem sortNat_eq_of_perm {l₁ l₂ : List ℕ} (h : l₁.Perm l₂) :
    sortNat l₁ = sortNat l₂ :=
  List.eq_of_perm_of_sorted
    ((sortNat_perm l₁).trans (h.trans (sortNat_perm l₂).symm))
    (sortNat_sorted l₁) (sortNat_sorted l₂)

theorem sortNat_idem (l : List ℕ) : sortNat (sortNat l) = sortNat l :=
  sortNat_eq_of_perm (sortNat_perm l)

/-! ### Bookkeeping lemmas for the propagator -/

theorem setSid_sid (t : LTree) (s : List ℕ) : (t.setSid s).sid = s := by
  cases t; rfl

theorem setSid_leafCount (t : LTree) (s : List ℕ) :
    leafCountLT (t.setSid s) = leafCountLT t := by
  cases t with
  | mk cs sid p m => cases cs <;> rfl

theorem rowInvT_setSid (t : LTree) (s : List ℕ) :
    rowInvT (t.setSid s) = rowInvT t := by
  cases t with
  | mk cs sid p m => cases cs <;> rfl

theorem fillGo_rows (mm0 mm1 : ℕ → ℕ → ℝ) (all : LForest) :
    ∀ (rest : LForest) (k i : ℕ) (T : Tensor3),
      (fillGo mm0 mm1 all k i T rest).rows = T.rows
  | .nil, _, _, _ => rfl
  | .cons c rest, k, i, T => by
      unfold fillGo
      simp only
      rw [fillGo_rows mm0 mm1 all rest _ _ _]
      split <;> rfl

theorem fillPLm_rows (mm0 mm1 : ℕ → ℕ → ℝ) (cs : LForest) (T : Tensor3) :
    (fillPLm mm0 mm1 cs T).rows = T.rows :=
  fillGo_rows mm0 mm1 cs cs 0 0 T

mutual
theorem calcMut_leafCountT (mm0 mm1 : ℕ → ℕ → ℝ) : ∀ t : LTree,
    leafCountLT (calc_mut_likelihoods mm0 mm1 t) = leafCountLT t
  | .mk .nil _ _ _ => rfl
  | .mk (.cons c cs) sid pl0 plm => by
      show leafCountLT (calc_mut_likelihoods mm0 mm1 c) +
          leafCountLF (calcMutF mm0 mm1 cs) = leafCountLT c + leafCountLF cs
      rw [calcMut_leafCountT mm0 mm1 c, calcMut_leafCountF mm0 mm1 cs]
theorem calcMut_leafCountF (mm0 mm1 : ℕ → ℕ → ℝ) : ∀ cs : LForest,
    leafCountLF (calcMutF mm0 mm1 cs) = leafCountLF cs
  | .nil => rfl
  | .cons c cs => by
      show leafCountLT (calc_mut_likelihoods mm0 mm1 c) +
          leafCountLF (calcMutF mm0 mm1 cs) = leafCountLT c + leafCountLF cs
      rw [calcMut_leafCountT mm0 mm1 c, calcMut_leafCountF mm0 mm1 cs]
end

/-- `rowInvT` holds of an internal node whose `PLm` has the right row
count and whose children satisfy the invariant. -/
theorem rowInvT_node (c0 : LTree) (cs0 : LForest) (sid : List ℕ)
    (pl0 : ℕ → ℕ → ℝ) (T : Tensor3)
    (h1 : T.rows = 2 * leafCountLF (.cons c0 cs0) - 2)
    (h2 : rowInvF (.cons c0 cs0) = true) :
    rowInvT (.mk (.cons c0 cs0) sid pl0 (some T)) = true := by
  show ((T.rows == 2 * leafCountLF (.cons c0 cs0) - 2) && rowInvF (.cons c0 cs0)) = true
  rw [h1, h2]
  simp

mutual
theorem calcMut_rowInvT (mm0 mm1 : ℕ → ℕ → ℝ) : ∀ t : LTree,
    leavesNoneT t = true → rowInvT (calc_mut_likelihoods mm0 mm1 t) = true
  | .mk .nil sid pl0 plm, h => h
  | .mk (.cons c cs) sid pl0 plm, h => by
      have hrows : (fillPLm mm0 mm1 (calcMutF mm0 mm1 (.cons c cs))
          ⟨2 * leafCountLF (.cons c cs) - 2, fun _ _ _ => 0⟩).rows =
          2 * leafCountLF (calcMutF mm0 mm1 (.cons c cs)) - 2 := by
        rw [fillPLm_rows, calcMut_leafCountF]
      have hkids : rowInvF (calcMutF mm0 mm1 (.cons c cs)) = true :=
        calcMut_rowInvF mm0 mm1 (.cons c cs) h
      exact rowInvT_node _ _ _ _ _ hrows hkids
theorem calcMut_rowInvF (mm0 mm1 : ℕ → ℕ → ℝ) : ∀ cs : LForest,
    leavesNoneF cs = true → rowInvF (calcMutF mm0 mm1 cs) = true
  | .nil, _ => rfl
  | .cons c cs, h => by
      have hc : leavesNoneT c = true ∧ leavesNoneF cs = true :=
        andE h
      show (rowInvT (calc_mut_likelihoods mm0 mm1 c) &&
        rowInvF (calcMutF mm0 mm1 cs)) = true
      rw [calcMut_rowInvT mm0 mm1 c hc.1, calcMut_rowInvF mm0 mm1 cs hc.2]
      rfl
end

/-- The equation of `update_PL` on a destructured node. -/
theorem update_PL_eq (mm0 mm1 : ℕ → ℕ → ℝ) (cs : LForest) (sid : List ℕ)
    (pl0 : ℕ → ℕ → ℝ) (plm : Option Tensor3) :
    update_PL mm0 mm1 (.mk cs sid pl0 plm) =
      .mk (updChildrenF mm0 mm1 cs) sid
        (fun s g => sumChildPL0 mm0 (updChildrenF mm0 mm1 cs) s g)
        (some (fillPLm mm0 mm1 (updChildrenF mm0 mm1 cs)
          ⟨2 * leafCountLT (.mk cs sid pl0 plm) - 2, fun _ _ _ => 0⟩)) := rfl

mutual
theorem updPL_leafCountT (mm0 mm1 : ℕ → ℕ → ℝ) : ∀ t : LTree,
    leafCountLT (update_PL mm0 mm1 t) = leafCountLT t
  | .mk .nil _ _ _ => rfl
  | .mk (.cons c cs) sid pl0 plm => updPL_leafCountF mm0 mm1 (.cons c cs)
theorem updPL_leafCountF (mm0 mm1 : ℕ → ℕ → ℝ) : ∀ cs : LForest,
    leafCountLF (updChildrenF mm0 mm1 cs) = leafCountLF cs
  | .nil => rfl
  | .cons c cs => by
      show leafCountLT (if c.sid ≠ sortedLeafIds c
            then (update_PL mm0 mm1 c).setSid (sortedLeafIds c) else c) +
          leafCountLF (updChildrenF mm0 mm1 cs) = leafCountLT c + leafCountLF cs
      rw [updPL_leafCountF mm0 mm1 cs]
      congr 1
      split
      · rw [setSid_leafCount, updPL_leafCountT mm0 mm1 c]
      · rfl
end

mutual
theorem updPL_leafIdsT (mm0 mm1 : ℕ → ℕ → ℝ) : ∀ t : LTree,
    (leafIdsT (update_PL mm0 mm1 t)).Perm (leafIdsT t)
  | .mk .nil sid _ _ => .refl sid
  | .mk (.cons c cs) sid pl0 plm => updPL_leafIdsF mm0 mm1 (.cons c cs)
theorem updPL_leafIdsF (mm0 mm1 : ℕ → ℕ → ℝ) : ∀ cs : LForest,
    (leafIdsF (updChildrenF mm0 mm1 cs)).Perm (leafIdsF cs)
  | .nil => .refl _
  | .cons c cs => by
      show (leafIdsT (if c.sid ≠ sortedLeafIds c
            then (update_PL mm0 mm1 c).setSid (sortedLeafIds c) else c) ++
          leafIdsF (updChildrenF mm0 mm1 cs)).Perm (leafIdsT c ++ leafIdsF cs)
      refine List.Perm.append ?_ (updPL_leafIdsF mm0 mm1 cs)
      split
      · cases c with
        | mk ccs csid cp cm =>
            cases ccs with
            | nil => exact sortNat_perm csid
            | cons c' cs' => exact updPL_leafIdsF mm0 mm1 (.cons c' cs')
      · exact .refl _
end

/-- Top-level children all have their recorded `sid` equal to the sorted
leaf ids below them. -/
def syncedF : LForest → Prop
  | .nil => True
  | .cons c cs => c.sid = sortedLeafIds c ∧ syncedF cs

theorem updChildren_synced (mm0 mm1 : ℕ → ℕ → ℝ) : ∀ cs : LForest,
    syncedF (updChildrenF mm0 mm1 cs)
  | .nil => trivial
  | .cons c cs => by
      show (LTree.sid (if c.sid ≠ sortedLeafIds c
              then (update_PL mm0 mm1 c).setSid (sortedLeafIds c) else c) =
            sortedLeafIds (if c.sid ≠ sortedLeafIds c
              then (update_PL mm0 mm1 c).setSid (sortedLeafIds c) else c)) ∧
          syncedF (updChildrenF mm0 mm1 cs)
      refine ⟨?_, updChildren_synced mm0 mm1 cs⟩
      split
      · rw [setSid_sid]
        cases c with
        | mk ccs csid cp cm =>
            cases ccs with
            | nil => exact (sortNat_idem csid).symm
            | cons c' cs' =>
                exact (sortNat_eq_of_perm (updPL_leafIdsF mm0 mm1 (.cons c' cs'))).symm
      · rename_i hns
        exact not_not.mp hns

theorem updChildren_id (mm0 mm1 : ℕ → ℕ → ℝ) : ∀ cs : LForest,
    syncedF cs → updChildrenF mm0 mm1 cs = cs
  | .nil, _ => rfl
  | .cons c cs, h => by
      show LForest.cons (if c.sid ≠ sortedLeafIds c
            then (update_PL mm0 mm1 c).setSid (sortedLeafIds c) else c)
          (updChildrenF mm0 mm1 cs) = .cons c cs
      rw [if_neg (not_not.mpr h.1), updChildren_id mm0 mm1 cs h.2]

/-- Claim C8: `update_PL` is idempotent — after one call every direct
child's recorded `sid` matches its sorted leaf ids, so a second call
repairs nothing and recomputes the same `PL0` and `PLm` from the same
children, yielding an identical node. -/
theorem update_PL_idempotent (mm0 mm1 : ℕ → ℕ → ℝ) (t : LTree) :
    update_PL mm0 mm1 (update_PL mm0 mm1 t) = update_PL mm0 mm1 t := by
  cases t with
  | mk cs sid pl0 plm =>
      rw [update_PL_eq mm0 mm1 cs sid pl0 plm]
      rw [update_PL_eq]
      rw [updChildren_id mm0 mm1 _ (updChildren_synced mm0 mm1 cs)]
      have hrow : leafCountLT (LTree.mk (updChildrenF mm0 mm1 cs) sid
          (fun s g => sumChildPL0 mm0 (updChildrenF mm0 mm1 cs) s g)
          (some (fillPLm mm0 mm1 (updChildrenF mm0 mm1 cs)
            ⟨2 * leafCountLT (.mk cs sid pl0 plm) - 2, fun _ _ _ => 0⟩))) =
          leafCountLT (.mk cs sid pl0 plm) := by
        rw [← update_PL_eq mm0 mm1 cs sid pl0 plm]
        exact updPL_leafCountT mm0 mm1 _
      rw [hrow]

mutual
theorem updPL_rowInvT (mm0 mm1 : ℕ → ℕ → ℝ) : ∀ t : LTree,
    isLeafT t = false → leafSidsOkT t = true → rowInvT t = true →
    rowInvT (update_PL mm0 mm1 t) = true
  | .mk .nil _ _ _, h, _, _ => by simp [isLeafT] at h
  | .mk (.cons c cs) sid pl0 plm, _, hok, hinv => by
      have hkidsinv : rowInvF (.cons c cs) = true :=
        (andE hinv).2
      have hrows : (fillPLm mm0 mm1 (updChildrenF mm0 mm1 (.cons c cs))
          ⟨2 * leafCountLT (.mk (.cons c cs) sid pl0 plm) - 2, fun _ _ _ => 0⟩).rows =
          2 * leafCountLF (updChildrenF mm0 mm1 (.cons c cs)) - 2 := by
        rw [fillPLm_rows, updPL_leafCountF]
        rfl
      have hkids : rowInvF (updChildrenF mm0 mm1 (.cons c cs)) = true :=
        updPL_rowInvF mm0 mm1 (.cons c cs) hok hkidsinv
      rw [update_PL_eq]
      exact rowInvT_node _ _ _ _ _ hrows hkids
theorem updPL_rowInvF (mm0 mm1 : ℕ → ℕ → ℝ) : ∀ cs : LForest,
    leafSidsOkF cs = true → rowInvF cs = true →
    rowInvF (updChildrenF mm0 mm1 cs) = true
  | .nil, _, _ => rfl
  | .cons c cs, hok, hinv => by
      have hok' : leafSidsOkT c = true ∧ leafSidsOkF cs = true :=
        andE hok
      have hinv' : rowInvT c = true ∧ rowInvF cs = true :=
        andE hinv
      show (rowInvT (if c.sid ≠ sortedLeafIds c
            then (update_PL mm0 mm1 c).setSid (sortedLeafIds c) else c) &&
          rowInvF (updChildrenF mm0 mm1 cs)) = true
      rw [updPL_rowInvF mm0 mm1 cs hok'.2 hinv'.2]
      suffices hsuf : rowInvT (if c.sid ≠ sortedLeafIds c
          then (update_PL mm0 mm1 c).setSid (sortedLeafIds c) else c) = true by
        rw [hsuf]
        rfl
      split
      · rename_i hstale
        cases c with
        | mk ccs csid cp cm =>
            cases ccs with
            | nil =>
                exfalso
                apply hstale
                have hsorted : sortNat csid = csid := beq_iff_eq.mp hok'.1
                show csid = sortNat csid
                exact hsorted.symm
            | cons c' cs' =>
                rw [rowInvT_setSid]
                exact updPL_rowInvT mm0 mm1 (.mk (.cons c' cs') csid cp cm)
                  rfl hok'.1 hinv'.1
      · exact hinv'.1
end

/-- Claim C7: after mutation-likelihood population every non-leaf node's
`PLm` has exactly `2·L−2` rows (`L` the node's leaf count) and leaves
carry no `PLm`; and `update_PL` preserves this invariant on any non-leaf
node of a tree whose leaf `sid`s are sorted (as the code guarantees). -/
theorem PLm_shape_invariant :
    (∀ (mm0 mm1 : ℕ → ℕ → ℝ) (t : LTree), leavesNoneT t = true →
      rowInvT (calc_mut_likelihoods mm0 mm1 t) = true) ∧
    (∀ (mm0 mm1 : ℕ → ℕ → ℝ) (t : LTree), isLeafT t = false →
      leafSidsOkT t = true → rowInvT t = true →
      rowInvT (update_PL mm0 mm1 t) = true) :=
  ⟨fun mm0 mm1 t h => calcMut_rowInvT mm0 mm1 t h,
   fun mm0 mm1 t h1 h2 h3 => updPL_rowInvT mm0 mm1 t h1 h2 h3⟩

/-- All-zero site×genotype matrix stand-in for concrete witnesses. -/
def zeroMatR : ℕ → ℕ → ℝ := fun _ _ => 0

def zeroT3 (r : ℕ) : Tensor3 := ⟨r, fun _ _ _ => 0⟩

def lLeaf (i : ℕ) : LTree := .mk .nil [i] zeroMatR none

/-- A 3-leaf tree fresh from `populate_tree_PL` (no `PLm` anywhere). -/
def lRoot : LTree :=
  .mk (.cons (.mk (.cons (lLeaf 0) (.cons (lLeaf 1) .nil)) [0, 1] zeroMatR none)
    (.cons (lLeaf 2) .nil)) [0, 1, 2] zeroMatR none

/-- The same 3-leaf tree with `PLm` tensors populated (2 rows on the
cherry, 4 on the root). -/
def lRootP : LTree :=
  .mk (.cons (.mk (.cons (lLeaf 0) (.cons (lLeaf 1) .nil)) [0, 1] zeroMatR
      (some (zeroT3 2)))
    (.cons (lLeaf 2) .nil)) [0, 1, 2] zeroMatR (some (zeroT3 4))

theorem PLm_shape_invariant_witness :
    (leavesNoneT lRoot = true ∧
      rowInvT (calc_mut_likelihoods zeroMatR zeroMatR lRoot) = true) ∧
    (isLeafT lRootP = false ∧ leafSidsOkT lRootP = true ∧ rowInvT lRootP = true ∧
      rowInvT (update_PL zeroMatR zeroMatR lRootP) = true) :=
  ⟨⟨by decide, PLm_shape_invariant.1 zeroMatR zeroMatR lRoot (by decide)⟩,
   ⟨by decide, by decide, by decide,
    PLm_shape_invariant.2 zeroMatR zeroMatR lRootP (by decide) (by decide) (by decide)⟩⟩

/-! ## The local-search procedures (`reroot`, `recursive_reroot`,
`nearest_neighbor_interchange`, `recursive_NNI`).

Two argument-passing slips in the source dominate here and are modelled
as Python would raise them:

* `reroot(tree, mm0, mm1, base_prior, DELTA)` takes five arguments, but
  every call inside `nearest_neighbor_interchange` passes only four
  (`reroot(node, mm0, mm1, base_prior)` in the one-leaf branch and
  `reroot(node_copy0/1/2, mm0, mm1, base_prior)` in the two-internal
  branches) — a `TypeError` at the call site;
* `reroot` returns the triple `(best_tree, best_PL, flag)`, but
  `recursive_reroot` unpacks every call into the two names
  `new_node, new_PL` — a `ValueError` before any result is used.

Because the raise happens before any tree is returned, the graft /
`update_PL` / scoring statements that would follow are unreachable and
are elided from the model (`NNIsweep_ok_zero` and
`nearest_neighbor_interchange_ok` prove the elided branches dead). -/

/-- Python `a, b = (x, y, z)`. -/
def valueErr : String := "ValueError: too many values to unpack"

def unpack2of3 {α β γ : Type} (_ : α × β × γ) : Except String (α × β) :=
  Except.error valueErr

/-- Calling five-parameter `reroot` with four arguments. -/
def typeErrReroot : String := "TypeError: reroot takes exactly 5 arguments, 4 given"

/-- `nearest_neighbor_interchange(node, mm0, mm1, base_prior, DELTA)`:
`c1,c2 = node.children`; two leaf children → `(None, None, 0)`; otherwise
the first thing executed is a four-argument `reroot` call, which raises
`TypeError` before anything else happens. -/
def nearest_neighbor_interchange (mm0 mm1 : ℕ → ℕ → ℝ) (base_prior : ℕ → ℝ)
    (DELTA : ℝ) : LTree → Except String (Option LTree × Option ℝ × ℕ)
  | .mk (.cons c1 (.cons c2 .nil)) _ _ _ =>
      if isLeafT c1 && isLeafT c2 then .ok (none, none, 0)
      else if isLeafT c1 || isLeafT c2 then
        .error typeErrReroot
      else
        .error typeErrReroot
  | _ => .error valueErr

/-- Sequencing of two statements under Python exception propagation. -/
def exSeq : Except String Unit → Except String Unit → Except String Unit
  | .error e, _ => .error e
  | .ok _, y => y

mutual
/-- The `for node in tree.iter_descendants(postorder)` body of
`recursive_reroot` on one subtree: children first, then (for a non-leaf)
`new_node,new_PL = reroot(node, mm0, mm1, base_prior, DELTA)` — a
two-name unpacking of a three-tuple.  The graft and whole-tree
`update_PL` that follow are unreachable.  `rerootF` stands for the
applied `reroot(·, mm0, mm1, base_prior, DELTA)`, whose result type is
the `(best_tree, best_PL, flag)` triple `reroot` returns. -/
def rrSweepT (rerootF : LTree → LTree × ℝ × ℕ) : LTree → Except String Unit
  | .mk .nil _ _ _ => .ok ()
  | .mk (.cons c0 cs0) sid pl0 plm =>
      exSeq (rrSweepF rerootF (.cons c0 cs0))
        (match unpack2of3 (rerootF (.mk (.cons c0 cs0) sid pl0 plm)) with
         | .error e => .error e
         | .ok _ => .ok ())
def rrSweepF (rerootF : LTree → LTree × ℝ × ℕ) : LForest → Except String Unit
  | .nil => .ok ()
  | .cons c cs => exSeq (rrSweepT rerootF c) (rrSweepF rerootF cs)
end

/-- `recursive_reroot(tree, mm0, mm1, base_prior, DELTA)`: the per-subtree
sweep followed by `new_tree,new_PL = reroot(tree, mm0, mm1, base_prior,
DELTA)` over the whole tree. -/
def recursive_reroot (rerootF : LTree → LTree × ℝ × ℕ) (tree : LTree) :
    Except String (LTree × ℝ) :=
  match rrSweepF rerootF tree.children with
  | .error e => .error e
  | .ok _ => unpack2of3 (rerootF tree)

mutual
theorem rrSweepT_err (rerootF : LTree → LTree × ℝ × ℕ) : ∀ t : LTree,
    rrSweepT rerootF t = .ok () ∨ rrSweepT rerootF t = .error valueErr
  | .mk .nil _ _ _ => .inl rfl
  | .mk (.cons c0 cs0) sid pl0 plm => by
      right
      show exSeq (rrSweepF rerootF (.cons c0 cs0))
        (match unpack2of3 (rerootF (.mk (.cons c0 cs0) sid pl0 plm)) with
         | .error e => .error e
         | .ok _ => .ok ()) = .error valueErr
      rcases rrSweepF_err rerootF (.cons c0 cs0) with h | h <;> rw [h] <;> rfl
theorem rrSweepF_err (rerootF : LTree → LTree × ℝ × ℕ) : ∀ cs : LForest,
    rrSweepF rerootF cs = .ok () ∨ rrSweepF rerootF cs = .error valueErr
  | .nil => .inl rfl
  | .cons c cs => by
      rcases rrSweepT_err rerootF c with h | h
      · have hred : rrSweepF rerootF (.cons c cs) = rrSweepF rerootF cs := by
          show exSeq (rrSweepT rerootF c) (rrSweepF rerootF cs) = _
          rw [h]
          rfl
        rw [hred]
        exact rrSweepF_err rerootF cs
      · right
        show exSeq (rrSweepT rerootF c) (rrSweepF rerootF cs) = .error valueErr
        rw [h]
        rfl
end

/-- Claim C2 evaluation: `recursive_reroot` raises `ValueError` on every
input — `reroot` returns a 3-tuple `(best_tree, best_PL, flag)` and
`recursive_reroot` unpacks each call into only two names, so neither the
per-subtree sweep nor the final whole-tree call can complete. -/
theorem recursive_reroot_always_errors (rerootF : LTree → LTree × ℝ × ℕ)
    (t : LTree) : recursive_reroot rerootF t = .error valueErr := by
  unfold recursive_reroot
  rcases rrSweepF_err rerootF t.children with h | h <;> rw [h] <;> rfl

/-- `nearest_neighbor_interchange` only ever succeeds with
`(None, None, 0)` (the two-leaf-children case): every other branch calls
`reroot` without `DELTA` and raises. -/
theorem nearest_neighbor_interchange_ok (mm0 mm1 : ℕ → ℕ → ℝ)
    (bp : ℕ → ℝ) (DELTA : ℝ) (node : LTree)
    (r : Option LTree × Option ℝ × ℕ)
    (h : nearest_neighbor_interchange mm0 mm1 bp DELTA node = .ok r) :
    r = (none, none, 0) := by
  obtain ⟨cs, sid, pl0, plm⟩ := node
  cases cs with
  | nil => exact Except.noConfusion h
  | cons c1 cs1 =>
      cases cs1 with
      | nil => exact Except.noConfusion h
      | cons c2 cs2 =>
          cases cs2 with
          | cons c3 cs3 => exact Except.noConfusion h
          | nil =>
              have h' : (if (isLeafT c1 && isLeafT c2) = true then
                  (Except.ok (none, none, 0) :
                    Except String (Option LTree × Option ℝ × ℕ))
                else if (isLeafT c1 || isLeafT c2) = true then .error typeErrReroot
                else .error typeErrReroot) = .ok r := h
              split at h'
              · injection h' with h''
                exact h''.symm
              · split at h' <;> exact Except.noConfusion h'

/-- Claim C3: with two leaf children `nearest_neighbor_interchange`
signals "no move" `(None, None, 0)`; with exactly one leaf child it
reaches `return reroot(node, mm0, mm1, base_prior)` — a four-argument
call of the five-parameter `reroot` — and raises `TypeError` instead of
returning that procedure's result. -/
theorem nni_leaf_cases (mm0 mm1 : ℕ → ℕ → ℝ) (bp : ℕ → ℝ) (DELTA : ℝ)
    (node c1 c2 : LTree) (h : node.children = .cons c1 (.cons c2 .nil)) :
    (isLeafT c1 = true → isLeafT c2 = true →
      nearest_neighbor_interchange mm0 mm1 bp DELTA node = .ok (none, none, 0)) ∧
    ((isLeafT c1 = true ∧ isLeafT c2 = false) ∨
        (isLeafT c1 = false ∧ isLeafT c2 = true) →
      nearest_neighbor_interchange mm0 mm1 bp DELTA node = .error typeErrReroot) := by
  obtain ⟨cs, sid, pl0, plm⟩ := node
  have hcs : cs = .cons c1 (.cons c2 .nil) := h
  subst hcs
  constructor
  · intro h1 h2
    show (if (isLeafT c1 && isLeafT c2) = true then
        (Except.ok (none, none, 0) : Except String (Option LTree × Option ℝ × ℕ))
      else if (isLeafT c1 || isLeafT c2) = true then .error typeErrReroot
      else .error typeErrReroot) = .ok (none, none, 0)
    rw [h1, h2]
    rfl
  · rintro (⟨h1, h2⟩ | ⟨h1, h2⟩) <;>
      · show (if (isLeafT c1 && isLeafT c2) = true then
            (Except.ok (none, none, 0) : Except String (Option LTree × Option ℝ × ℕ))
          else if (isLeafT c1 || isLeafT c2) = true then .error typeErrReroot
          else .error typeErrReroot) = .error typeErrReroot
        rw [h1, h2]
        rfl

/-- A cherry (two leaf children). -/
def cherry01 : LTree :=
  .mk (.cons (lLeaf 0) (.cons (lLeaf 1) .nil)) [0, 1] zeroMatR none

/-- A node with one leaf child and one internal child — the shape on
which the one-leaf NNI branch runs. -/
def nniNode1 : LTree :=
  .mk (.cons (lLeaf 2) (.cons cherry01 .nil)) [0, 1, 2] zeroMatR none

theorem nni_leaf_cases_witness :
    nearest_neighbor_interchange zeroMatR zeroMatR (fun _ => 0) 0 cherry01 =
      .ok (none, none, 0) ∧
    nearest_neighbor_interchange zeroMatR zeroMatR (fun _ => 0) 0 nniNode1 =
      .error typeErrReroot :=
  ⟨(nni_leaf_cases zeroMatR zeroMatR (fun _ => 0) 0 cherry01 (lLeaf 0) (lLeaf 1)
      rfl).1 rfl rfl,
   (nni_leaf_cases zeroMatR zeroMatR (fun _ => 0) 0 nniNode1 (lLeaf 2) cherry01
      rfl).2 (Or.inl ⟨rfl, rfl⟩)⟩

mutual
/-- One post-order sweep of `recursive_NNI`: visits every node (leaves
`continue`), runs `nearest_neighbor_interchange`, and accumulates
`num_nnis`.  The detach/reattach/`update_PL`/`score` statements of the
accepting branch are elided: `NNIsweep_ok_zero` proves a sweep never
accepts (the interchange raises `TypeError` first on every non-cherry
internal node). -/
def NNIsweepT (mm0 mm1 : ℕ → ℕ → ℝ) (bp : ℕ → ℝ) (DELTA : ℝ) :
    LTree → Except String ℕ
  | .mk .nil _ _ _ => .ok 0
  | .mk (.cons c0 cs0) sid pl0 plm =>
      match NNIsweepF mm0 mm1 bp DELTA (.cons c0 cs0) with
      | .error e => .error e
      | .ok k =>
          match nearest_neighbor_interchange mm0 mm1 bp DELTA
              (.mk (.cons c0 cs0) sid pl0 plm) with
          | .error e => .error e
          | .ok (none, _, _) => .ok k
          | .ok (some _, _, f) => .ok (k + f)
def NNIsweepF (mm0 mm1 : ℕ → ℕ → ℝ) (bp : ℕ → ℝ) (DELTA : ℝ) :
    LForest → Except String ℕ
  | .nil => .ok 0
  | .cons c cs =>
      match NNIsweepT mm0 mm1 bp DELTA c with
      | .error e => .error e
      | .ok a =>
          match NNIsweepF mm0 mm1 bp DELTA cs with
          | .error e => .error e
          | .ok b => .ok (a + b)
end

mutual
theorem NNIsweepT_ok_zero (mm0 mm1 : ℕ → ℕ → ℝ) (bp : ℕ → ℝ) (DELTA : ℝ) :
    ∀ (t : LTree) (k : ℕ), NNIsweepT mm0 mm1 bp DELTA t = .ok k → k = 0
  | .mk .nil _ _ _, k, h => by
      injection h with h'
      exact h'.symm
  | .mk (.cons c0 cs0) sid pl0 plm, k, h => by
      unfold NNIsweepT at h
      split at h
      · exact absurd h (by simp)
      · rename_i k' hsweep
        split at h
        · exact absurd h (by simp)
        · injection h with h'
          subst h'
          exact NNIsweepF_ok_zero mm0 mm1 bp DELTA (.cons c0 cs0) k' hsweep
        · rename_i t' pl' f hnni
          exact absurd (nearest_neighbor_interchange_ok mm0 mm1 bp DELTA _ _ hnni)
            (by simp)
theorem NNIsweepF_ok_zero (mm0 mm1 : ℕ → ℕ → ℝ) (bp : ℕ → ℝ) (DELTA : ℝ) :
    ∀ (cs : LForest) (k : ℕ), NNIsweepF mm0 mm1 bp DELTA cs = .ok k → k = 0
  | .nil, k, h => by
      injection h with h'
      exact h'.symm
  | .cons c cs, k, h => by
      unfold NNIsweepF at h
      split at h
      · exact absurd h (by simp)
      · rename_i a ha
        split at h
        · exact absurd h (by simp)
        · rename_i b hb
          injection h with h'
          subst h'
          rw [NNIsweepT_ok_zero mm0 mm1 bp DELTA c a ha,
            NNIsweepF_ok_zero mm0 mm1 bp DELTA cs b hb]
end

/-- The `while(num_nnis>0)` loop of `recursive_NNI`, fuelled.  `PL` is
assigned only when an interchange returns a tree, which never happens,
so returning with `num_nnis = 0` reads the unassigned `PL`
(`UnboundLocalError`). -/
def recursive_NNI_loop (mm0 mm1 : ℕ → ℕ → ℝ) (bp : ℕ → ℝ) (DELTA : ℝ) :
    ℕ → LTree → Option ℝ → ℕ → Except String (LTree × ℝ)
  | _, t, pl, 0 =>
      match pl with
      | some v => .ok (t, v)
      | none => .error "UnboundLocalError: local variable PL referenced before assignment"
  | 0, _, _, _ + 1 => .error "fuel exhausted"
  | fuel + 1, t, pl, _ + 1 =>
      match NNIsweepT mm0 mm1 bp DELTA t with
      | .error e => .error e
      | .ok k => recursive_NNI_loop mm0 mm1 bp DELTA fuel t pl k

/-- `recursive_NNI(tree, mm0, mm1, base_prior, DELTA)`: `num_nnis = 1`,
then sweep until a sweep accepts nothing. -/
def recursive_NNI (mm0 mm1 : ℕ → ℕ → ℝ) (bp : ℕ → ℝ) (DELTA : ℝ)
    (fuel : ℕ) (t : LTree) : Except String (LTree × ℝ) :=
  recursive_NNI_loop mm0 mm1 bp DELTA fuel t none 1

/-- Claim C9 evaluation: `recursive_NNI` raises on every input instead of
sweeping to a fixed point: the first sweep either hits a non-cherry
internal node — where `nearest_neighbor_interchange` calls `reroot` with
four arguments and raises `TypeError` — or accepts nothing, upon which
`return tree,PL` reads the never-assigned `PL` (`UnboundLocalError`). -/
theorem recursive_NNI_always_errors (mm0 mm1 : ℕ → ℕ → ℝ) (bp : ℕ → ℝ)
    (DELTA : ℝ) (t : LTree) (fuel : ℕ) (hf : 0 < fuel) :
    ∃ msg, recursive_NNI mm0 mm1 bp DELTA fuel t = .error msg := by
  obtain ⟨f, rfl⟩ : ∃ f, fuel = f + 1 := ⟨fuel - 1, by omega⟩
  unfold recursive_NNI recursive_NNI_loop
  cases hs : NNIsweepT mm0 mm1 bp DELTA t with
  | error e => exact ⟨e, rfl⟩
  | ok k =>
      have hk := NNIsweepT_ok_zero mm0 mm1 bp DELTA t k hs
      subst hk
      exact ⟨"UnboundLocalError: local variable PL referenced before assignment",
        by cases f <;> rfl⟩

theorem recursive_NNI_always_errors_witness :
    0 < 1 ∧ ∃ msg, recursive_NNI zeroMatR zeroMatR (fun _ => 0) 0 1 lRoot =
      .error msg :=
  ⟨by decide,
   recursive_NNI_always_errors zeroMatR zeroMatR (fun _ => 0) 0 lRoot 1 (by decide)⟩

end TreeEst
